import Mathlib

/-!
Verification of the scapegoat-tree implementation (ScapegoatTree.cpp / ScapegoatTree.h).

The C++ code is a pointer-based binary search tree over `int` keys.  We embed it
shallowly: a `Node*` is a `Tree` (with `Tree.nil` standing for `nullptr`), the
in-place pointer mutations become pure tree-returning functions, and the
`double alpha` balance factor (fixed at construction, constrained to the open
interval (0.5, 1)) is represented exactly as a rational `alphaNum / alphaDen`
with natural-number numerator and denominator; every comparison the C++ makes
against `alpha * x` is embedded as the exact rational comparison, and
`getAlphaDeepHeight` (floor(log_{1/alpha} n) in the source, computed there with
floating-point `log`) is embedded as the exact mathematical value: the largest
k with (alphaDen/alphaNum)^k ≤ n.
-/

namespace Scapegoat

/-- A BST node (`struct Node { int key; Node* left; Node* right; }`);
`nil` is `nullptr`. -/
inductive Tree where
  | nil : Tree
  | node (left : Tree) (key : Int) (right : Tree) : Tree
deriving DecidableEq

namespace Tree

/-- The `left` field of a node (`nullptr->left` never occurs; `nil` maps to `nil`). -/
def left : Tree → Tree
  | nil => nil
  | node l _ _ => l

/-- The `right` field of a node. -/
def right : Tree → Tree
  | nil => nil
  | node _ _ r => r

/-- The `key` field of a node (default 0 for `nil`, never used on `nil`). -/
def key : Tree → Int
  | nil => 0
  | node _ k _ => k

end Tree

open Tree

/-- Number of nodes of a subtree; embeds `ScapegoatTree::getSubtreeSize`
(`return 1 + getSubtreeSize(node->left) + getSubtreeSize(node->right)`). -/
def treeSize : Tree → Nat
  | .nil => 0
  | .node l _ r => 1 + treeSize l + treeSize r

/-- In-order key sequence of a subtree (the order maintained by the BST). -/
def inorder : Tree → List Int
  | .nil => []
  | .node l x r => inorder l ++ x :: inorder r

/-- Embeds `ScapegoatTree::search`: standard BST descent. -/
def searchB : Tree → Int → Bool
  | .nil, _ => false
  | .node l x r, k =>
    if k = x then true
    else if k < x then searchB l k
    else searchB r k

/-- The pure BST leaf insertion performed by `ScapegoatTree::insert` lines 56-79:
descend comparing keys and wire a fresh leaf at the empty slot reached
(the already-present case is handled by the caller, which returns early). -/
def bstInsert : Tree → Int → Tree
  | .nil, k => .node .nil k .nil
  | .node l x r, k =>
    if k = x then .node l x r
    else if k < x then .node (bstInsert l k) x r
    else .node l x (bstInsert r k)

/-- The proper ancestors of the node holding key `k`, topmost (root) first.
This is the content of the C++ `insertionPath` stack (without its `nullptr`
sentinel) read bottom-to-top, taken in the tree after the new leaf is wired in:
the stack holds pointers into the mutated tree, so each ancestor's subtree
includes the new leaf. -/
def ancestors : Tree → Int → List Tree
  | .nil, _ => []
  | .node l x r, k =>
    if k = x then []
    else if k < x then .node l x r :: ancestors l k
    else .node l x r :: ancestors r k

/-- Exact value of `getAlphaDeepHeight`: iterate k upward while
`b^(k+1) ≤ n * a^(k+1)` (i.e. `(b/a)^(k+1) ≤ n`), carrying `bk = b^k` and
`ak = a^k`.  The fuel argument only bounds the iteration; `a * n + 1` steps
always suffice for `1 ≤ a < b` (see `getAlphaDeepHeight_spec`). -/
def aDHgo (a b n : Nat) : Nat → Nat → Nat → Nat → Nat
  | 0, k, _, _ => k
  | fuel + 1, k, bk, ak =>
    if bk * b ≤ n * (ak * a) then aDHgo a b n fuel (k + 1) (bk * b) (ak * a)
    else k

/-- Embeds `ScapegoatTree::getAlphaDeepHeight`, documented in the header as
`floor(log_{1/alpha}(size))`: with `alpha = a / b` this is the largest `k`
with `(b/a)^k ≤ size`, computed exactly over the rationals (the C++ evaluates
the same quantity with floating-point `log`). -/
def getAlphaDeepHeight (a b n : Nat) : Nat :=
  aDHgo a b n (a * n + 1) 0 1 1

/-- Loop of `ScapegoatTree::findScapegoat` (lines 225-245).  `curr` is the
current candidate ancestor, `currSize` its tracked subtree size, `currIndex`
its 1-based index among the ancestors of the inserted node, and the list is
the remaining stack (pop order), which in the program ends with the `nullptr`
sentinel.  Popping from an empty stack is undefined behaviour in C++ and is
modelled by the `none` result. -/
def fsgLoop (a b : Nat) : Tree → Nat → Nat → List Tree → Option (Tree × Tree × Nat)
  | _, _, _, [] => none
  | curr, currSize, currIndex, parent :: stk =>
    match parent with
    | .nil => some (curr, .nil, currSize)
    | .node pl px pr =>
      if currIndex > getAlphaDeepHeight a b currSize then
        some (curr, .node pl px pr, currSize)
      else
        fsgLoop a b (.node pl px pr)
          (currSize + 1 + treeSize (if pl = curr then pr else pl))
          (currIndex + 1) stk

/-- Embeds `ScapegoatTree::findScapegoat`: pop `curr` (the parent of the
inserted node), compute its exact subtree size, and run the loop with
`currIndex = 1` on the rest of the stack.  The result triple is the C++
`Scapegoat` struct `{ scapegoat, parent, treeSize }` with `Tree.nil` for a
null parent. -/
def findScapegoat (a b : Nat) : List Tree → Option (Tree × Tree × Nat)
  | [] => none
  | curr :: stk => fsgLoop a b curr (treeSize curr) 1 stk

/-- Embeds `ScapegoatTree::flatten`: convert the subtree into a linked list
threaded through `right` pointers, prepended to `listHead`.  As in the C++,
the stale `left` pointers of the chain nodes are left in place (they are
overwritten by `buildTree`). -/
def flatten : Tree → Tree → Tree
  | .nil, listHead => listHead
  | .node l x r, listHead => flatten l (.node l x (flatten r listHead))

/-- Embeds `ScapegoatTree::buildTree`: build a weight-balanced tree from the
first `treeSize` nodes of the right-threaded chain; the result is the
`(treeSize+1)`-th chain node, whose `left` child holds the built tree and
whose `right` holds the rest of the chain.  `halfTreeSize = (treeSize-1)/2`;
the left recursion takes `ceil(halfTreeSize)` nodes and the right recursion
`floor(halfTreeSize)`.  The chain is assumed (as in the C++) to hold at least
`treeSize + 1` nodes; on a shorter chain the C++ dereferences null, modelled
by the junk `nil` fallbacks. -/
def buildTree : Nat → Tree → Tree
  | 0, listHead =>
    match listHead with
    | .nil => .nil
    | .node _ x r => .node .nil x r
  | n + 1, listHead =>
    let firstHalf := buildTree ((n + 1) / 2) listHead
    let secondHalf := buildTree (n / 2) firstHalf.right
    match firstHalf, secondHalf with
    | .node fl fx _, .node sl sx sr => .node (.node fl fx sl) sx sr
    | _, _ => .nil
termination_by n _ => n
decreasing_by
  · exact Nat.div_lt_self (Nat.succ_pos n) (by norm_num)
  · exact Nat.lt_succ_of_le (Nat.div_le_self n 2)

/-- The stack-allocated `Node dummy = { -1, nullptr, nullptr }` of
`ScapegoatTree::rebuild`. -/
def dummyNode : Tree := .node .nil (-1) .nil

/-- Embeds `ScapegoatTree::rebuild`'s flatten-then-build core: flatten the
scapegoat subtree onto the dummy node and rebuild; the dummy's `left` child
(equivalently, the `left` of the node `buildTree` returns, which is the dummy
when `n` is the exact subtree size) is the root of the rebuilt subtree. -/
def rebuildSubtree (n : Nat) (t : Tree) : Tree :=
  (buildTree n (flatten t dummyNode)).left

/-- Rewiring of the rebuilt subtree into the scapegoat's parent slot
(`scapegoat.parent->left/right = dummy.left`).  The C++ identifies the slot by
the stored parent pointer; since the scapegoat lies on the search path of the
freshly inserted key `k`, the same slot is located by descending that path and
replacing the (unique) subtree equal to `target`. -/
def graftAlong (k : Int) (target repl : Tree) : Tree → Tree
  | .nil => if Tree.nil = target then repl else .nil
  | .node l x r =>
    if Tree.node l x r = target then repl
    else if k < x then .node (graftAlong k target repl l) x r
    else if x < k then .node l x (graftAlong k target repl r)
    else .node l x r

/-- Splice out the minimum node of a (nonempty) subtree, returning its key and
the remaining subtree.  This is the successor branch of
`ScapegoatTree::removeNodeWithTwoChildren` applied to `node->right`: if the
root of the subtree has no left child it is itself the successor
(`node->right = curr->right`), otherwise descend the left spine and splice
(`prev->left = curr->right`). -/
def spliceMin : Tree → Int × Tree
  | .nil => (0, .nil)
  | .node .nil x r => (x, r)
  | .node (.node ll lx lr) x r =>
    let p := spliceMin (.node ll lx lr)
    (p.1, .node p.2 x r)

/-- Splice out the maximum node: the predecessor branch of
`removeNodeWithTwoChildren` applied to `node->left`. -/
def spliceMax : Tree → Int × Tree
  | .nil => (0, .nil)
  | .node l x .nil => (x, l)
  | .node l x (.node rl rx rr) =>
    let p := spliceMax (.node rl rx rr)
    (p.1, .node l x p.2)

/-- Embeds `ScapegoatTree::removeNodeWithTwoChildren` acting on the node
`node l x r` (both children non-null): overwrite the node's key with its
in-order successor's (toggle true) or predecessor's (toggle false) key and
splice that successor/predecessor out of the corresponding subtree. -/
def removeNodeWithTwoChildren (replaceWithSucc : Bool) (l : Tree) (_x : Int) (r : Tree) : Tree :=
  if replaceWithSucc then
    let p := spliceMin r
    .node l p.1 p.2
  else
    let p := spliceMax l
    .node p.2 p.1 r

/-- Embeds the removal descent of `ScapegoatTree::remove` lines 100-119
together with `removeNodeWithTwoChildren` / `removeNodeWithoutChild`:
descend to the node holding `k`; a two-child node is handled by the
successor/predecessor splice, a node with at most one child is replaced by its
sole child (`node->left ? node->left : node->right`).  The boolean result
records whether the two-children branch ran (it flips `replaceWithSucc`). -/
def removeKey (repl : Bool) : Tree → Int → Tree × Bool
  | .nil, _ => (.nil, false)
  | .node l x r, k =>
    if k = x then
      match l, r with
      | .node la ka ra, .node lb kb rb =>
        (removeNodeWithTwoChildren repl (.node la ka ra) x (.node lb kb rb), true)
      | .nil, rr => (rr, false)
      | ll, .nil => (ll, false)
    else if k < x then
      let p := removeKey repl l k
      (.node p.1 x r, p.2)
    else
      let p := removeKey repl r k
      (.node l x p.1, p.2)

/-- The node of `t` holding key `k` (found by BST descent), `nil` if absent. -/
def findNode : Tree → Int → Tree
  | .nil, _ => .nil
  | .node l x r, k =>
    if k = x then .node l x r
    else if k < x then findNode l k
    else findNode r k

/-- The state of a `ScapegoatTree` object: root pointer, the `size` and
`maxSize` counters, the `replaceWithSucc` toggle, and the balance factor
`alpha = alphaNum / alphaDen` (a rational in place of the C++ `double`). -/
structure SGTree where
  root : Tree
  size : Nat
  maxSize : Nat
  replaceWithSucc : Bool
  alphaNum : Nat
  alphaDen : Nat
deriving DecidableEq

/-- The state of a freshly constructed tree storing alpha = a/b: null root,
`size = 0`, `maxSize = 0`, `replaceWithSucc = true`. -/
def freshTree (a b : Nat) : SGTree :=
  { root := .nil, size := 0, maxSize := 0, replaceWithSucc := true,
    alphaNum := a, alphaDen := b }

/-- Embeds the constructor `ScapegoatTree::ScapegoatTree(double alpha)`:
throw `std::invalid_argument` (modelled by `none`) when
`alpha <= 0.5 || alpha >= 1.0`, i.e. `2a ≤ b` or `b ≤ a`; otherwise the
fresh tree stores alpha and starts with null root, `size = 0`, `maxSize = 0`,
`replaceWithSucc = true`. -/
def mkScapegoatTree (a b : Nat) : Option SGTree :=
  if 2 * a ≤ b ∨ b ≤ a then none
  else some { root := .nil, size := 0, maxSize := 0, replaceWithSucc := true,
              alphaNum := a, alphaDen := b }

/-- Embeds `ScapegoatTree::insert`.  An already-present key returns false with
the tree untouched.  Otherwise the leaf is wired in, `size` incremented,
`maxSize = max(maxSize, size)`, and if `insertionHeight >= 1 &&
insertionHeight > getAlphaDeepHeight(size)` the scapegoat is found from the
ancestor stack (deepest first, `nullptr` sentinel at the bottom) and its
subtree rebuilt; a root rebuild (null parent) additionally sets
`maxSize = size`. -/
def SGTree.insert (s : SGTree) (k : Int) : SGTree × Bool :=
  if searchB s.root k then (s, false)
  else
    let root1 := bstInsert s.root k
    let size1 := s.size + 1
    let maxSize1 := max s.maxSize size1
    let path := (ancestors root1 k).reverse
    let insertionHeight := path.length
    if insertionHeight ≥ 1 ∧ insertionHeight > getAlphaDeepHeight s.alphaNum s.alphaDen size1 then
      match findScapegoat s.alphaNum s.alphaDen (path ++ [Tree.nil]) with
      | some (sg, par, sz) =>
        let rebuilt := rebuildSubtree sz sg
        if par = Tree.nil then
          ({ s with root := rebuilt, size := size1, maxSize := size1 }, true)
        else
          ({ s with root := graftAlong k sg rebuilt root1, size := size1, maxSize := maxSize1 },
           true)
      | none =>
        -- Unreachable: the stack always ends with the sentinel, so the loop
        -- terminates with a result (`findScapegoat_safe`); in C++ this case
        -- would be a stack underflow.
        ({ s with root := root1, size := size1, maxSize := maxSize1 }, true)
    else ({ s with root := root1, size := size1, maxSize := maxSize1 }, true)

/-- Embeds `ScapegoatTree::remove`.  An absent key returns false with the tree
untouched.  Otherwise the node is spliced out, `size` decremented, and if
`size <= alpha * maxSize` (exactly: `size * alphaDen ≤ alphaNum * maxSize`)
the whole tree is rebuilt as the scapegoat with null parent, resetting
`maxSize = size`. -/
def SGTree.remove (s : SGTree) (k : Int) : SGTree × Bool :=
  if searchB s.root k then
    let p := removeKey s.replaceWithSucc s.root k
    let repl1 := if p.2 then ! s.replaceWithSucc else s.replaceWithSucc
    let size1 := s.size - 1
    if size1 * s.alphaDen ≤ s.alphaNum * s.maxSize then
      ({ s with root := rebuildSubtree size1 p.1, size := size1, maxSize := size1,
                replaceWithSucc := repl1 }, true)
    else
      ({ s with root := p.1, size := size1, replaceWithSucc := repl1 }, true)
  else (s, false)

/-- The `VerificationData` struct of the C++. -/
structure VerificationData where
  balanced : Bool
  isBST : Bool
  size : Nat
  height : Int

/-- Embeds `ScapegoatTree::verifyHelper`.  Note, exactly as in the source
(line 331): the returned `balanced` flag is `height <= max_height` for this
node only — the children's `balanced` flags are not conjoined — while the
`isBST` flag conjoins the children's flags and the local key comparisons. -/
def verifyHelper (a b : Nat) : Tree → VerificationData
  | .nil => ⟨true, true, 0, -1⟩
  | .node l x r =>
    let vl := verifyHelper a b l
    let vr := verifyHelper a b r
    let bst := vl.isBST && vr.isBST
      && (if l = Tree.nil then true else decide (l.key < x))
      && (if r = Tree.nil then true else decide (x < r.key))
    let sz := vl.size + vr.size + 1
    let h := max vl.height vr.height + 1
    ⟨decide (h ≤ (getAlphaDeepHeight a b sz : Int) + 1), bst, sz, h⟩

/-- Embeds `ScapegoatTree::verify`:
`size >= alpha * maxSize && balanced && isBST`. -/
def SGTree.verify (s : SGTree) : Bool :=
  let v := verifyHelper s.alphaNum s.alphaDen s.root
  decide (s.alphaNum * s.maxSize ≤ s.size * s.alphaDen) && v.balanced && v.isBST

/-- Height of a subtree, −1 for the empty tree, as computed by
`verifyHelper`. -/
def heightI : Tree → Int
  | .nil => -1
  | .node l _ r => max (heightI l) (heightI r) + 1

/-- Depth (number of edges from the root) at which `graftAlong` replaces the
`target` subtree: the same descent along the search path of `k`, counting the
steps until the first match (0 past the point where no match can happen). -/
def graftDepth (k : Int) (target : Tree) : Tree → Nat
  | .nil => 0
  | .node l x r =>
    if Tree.node l x r = target then 0
    else if k < x then 1 + graftDepth k target l
    else if x < k then 1 + graftDepth k target r
    else 0

/-- Height of a tree with the `target` subtree (as found by the `graftAlong`
descent along the search path of `k`) excluded, i.e. counted as an empty
subtree.  Bounds the height of everything a graft at `target` leaves
untouched. -/
def heightExcept (k : Int) (target : Tree) : Tree → Int
  | .nil => -1
  | .node l x r =>
    if Tree.node l x r = target then -1
    else if k < x then max (heightExcept k target l) (heightI r) + 1
    else if x < k then max (heightI l) (heightExcept k target r) + 1
    else heightI (.node l x r)

/-- Height invariant maintained by the rebalance engine (Galperin–Rivest):
the tree's height is at most `getAlphaDeepHeight size + 1` (so the root-level
`balanced` check of `verify` passes) and, more strongly, at most
`getAlphaDeepHeight maxSize` (the slack consumed by deletions before the
`size ≤ alpha * maxSize` rebuild fires). -/
def HInv (s : SGTree) : Prop :=
  heightI s.root ≤ (getAlphaDeepHeight s.alphaNum s.alphaDen s.size : Int) + 1 ∧
  heightI s.root ≤ (getAlphaDeepHeight s.alphaNum s.alphaDen s.maxSize : Int)

/-- One public call on the container. -/
inductive Op where
  | ins (k : Int)
  | del (k : Int)
  | qry (k : Int)
deriving DecidableEq

/-- Run one public call, returning the new state and the boolean the call
returns. -/
def SGTree.step (s : SGTree) : Op → SGTree × Bool
  | .ins k => s.insert k
  | .del k => s.remove k
  | .qry k => (s, searchB s.root k)

/-- Final state after a sequence of public calls. -/
def applyOps (s : SGTree) (ops : List Op) : SGTree :=
  ops.foldl (fun t op => (t.step op).1) s

/-- The booleans returned by a sequence of public calls. -/
def runOutputs (s : SGTree) : List Op → List Bool
  | [] => []
  | op :: ops => (s.step op).2 :: runOutputs (s.step op).1 ops

/-- Reference model of the key set: the keys whose most recent successful
insert has not been followed by a successful remove. -/
def modelStepKeys (ks : List Int) : Op → List Int
  | .ins k => if k ∈ ks then ks else k :: ks
  | .del k => ks.erase k
  | .qry _ => ks

/-- Model key set after a sequence of calls, starting empty. -/
def modelKeys (ops : List Op) : List Int :=
  ops.foldl modelStepKeys []

/-- The binary-search-tree ordering invariant, stated as strict sortedness of
the in-order key sequence. -/
def IsBST (t : Tree) : Prop := (inorder t).Pairwise (fun a b => a < b)

instance (t : Tree) : Decidable (IsBST t) := by
  unfold IsBST; infer_instance

/-- Keys read along the `right`-threaded chain (the linked list produced by
`flatten`, whose next pointer is the `right` field). -/
def spineKeys : Tree → List Int
  | .nil => []
  | .node _ x r => x :: spineKeys r

/-- Step `n` times along `right` pointers of a chain. -/
def spineDrop : Nat → Tree → Tree
  | 0, t => t
  | _ + 1, .nil => .nil
  | n + 1, .node _ _ r => spineDrop n r

/-- Element of a key list at an index (0 when out of range). -/
def nthKey : List Int → Nat → Int
  | [], _ => 0
  | x :: _, 0 => x
  | _ :: xs, n + 1 => nthKey xs n

/-- Specification-side description of the tree `buildTree` makes out of a key
list of known length: the first `ceil((n-1)/2)` keys go to the left subtree,
the next key becomes the root, the remaining `floor((n-1)/2)` keys go to the
right subtree. -/
def balTree : List Int → Tree
  | [] => .nil
  | y :: ys =>
    .node (balTree ((y :: ys).take ((ys.length + 1) / 2)))
      (nthKey (y :: ys) ((ys.length + 1) / 2))
      (balTree ((y :: ys).drop ((ys.length + 1) / 2 + 1)))
termination_by xs => xs.length
decreasing_by
  · simp [List.length_take]; omega
  · simp; omega

/-- Checks, at every node, the exact split sizes of `buildTree`: a node whose
children hold `L` and `R` descendants has `L = ceil((L+R)/2)` and
`R = floor((L+R)/2)`. -/
def splitBalancedB : Tree → Bool
  | .nil => true
  | .node l _ r =>
    decide (treeSize l = (treeSize l + treeSize r + 1) / 2)
      && decide (treeSize r = (treeSize l + treeSize r) / 2)
      && splitBalancedB l && splitBalancedB r

/-- Checks, at every node, that the sibling subtree sizes differ by at most
one. -/
def siblingBalancedB : Tree → Bool
  | .nil => true
  | .node l _ r =>
    decide (treeSize l ≤ treeSize r + 1) && decide (treeSize r ≤ treeSize l + 1)
      && siblingBalancedB l && siblingBalancedB r

/-- The node holding the minimum key of a nonempty subtree (the in-order
successor spliced out by the two-children removal); by construction it has no
left child. -/
def leftmostSubtree : Tree → Tree
  | .nil => .nil
  | .node .nil x r => .node .nil x r
  | .node (.node a y b) _ _ => leftmostSubtree (.node a y b)

/-- The node holding the maximum key of a nonempty subtree (the in-order
predecessor); by construction it has no right child. -/
def rightmostSubtree : Tree → Tree
  | .nil => .nil
  | .node l x .nil => .node l x .nil
  | .node _ _ (.node a y b) => rightmostSubtree (.node a y b)

/-- Invariant satisfied by every container state reachable from a validly
constructed tree: the BST ordering holds, the `size` counter is exact, the
global size check `size ≥ alpha * maxSize` holds, and alpha is a stored value
in (0.5, 1). -/
def Inv (s : SGTree) : Prop :=
  IsBST s.root ∧ s.size = treeSize s.root ∧
  s.alphaNum * s.maxSize ≤ s.size * s.alphaDen ∧
  s.alphaDen < 2 * s.alphaNum ∧ s.alphaNum < s.alphaDen

instance (s : SGTree) : Decidable (Inv s) := by
  unfold Inv; infer_instance

/-! ### Basic facts: inorder, size, membership, the BST invariant, search -/

lemma length_inorder (t : Tree) : (inorder t).length = treeSize t := by
  induction t with
  | nil => rfl
  | node l x r ihl ihr => simp [inorder, treeSize, ihl, ihr]; omega

lemma mem_inorder_node {j : Int} {l r : Tree} {x : Int} :
    j ∈ inorder (.node l x r) ↔ j ∈ inorder l ∨ j = x ∨ j ∈ inorder r := by
  simp [inorder]

lemma isBST_node {l r : Tree} {x : Int} :
    IsBST (.node l x r) ↔
      IsBST l ∧ IsBST r ∧ (∀ a ∈ inorder l, a < x) ∧ (∀ c ∈ inorder r, x < c) := by
  unfold IsBST
  rw [inorder, List.pairwise_append, List.pairwise_cons]
  constructor
  · rintro ⟨hl, ⟨hx, hr⟩, hcross⟩
    exact ⟨hl, hr, fun a ha => hcross a ha x (by simp), hx⟩
  · rintro ⟨hl, hr, hax, hxc⟩
    refine ⟨hl, ⟨hxc, hr⟩, ?_⟩
    intro a ha b hb
    rcases List.mem_cons.mp hb with rfl | hb
    · exact hax a ha
    · exact lt_trans (hax a ha) (hxc b hb)

lemma nodup_inorder {t : Tree} (h : IsBST t) : (inorder t).Nodup :=
  h.imp ne_of_lt

lemma searchB_eq {t : Tree} (h : IsBST t) (k : Int) :
    searchB t k = true ↔ k ∈ inorder t := by
  induction t with
  | nil => simp [searchB, inorder]
  | node l x r ihl ihr =>
    rcases isBST_node.mp h with ⟨hl, hr, hax, hxc⟩
    by_cases hk : k = x
    · subst hk; simp [searchB, mem_inorder_node]
    · by_cases hlt : k < x
      · rw [show searchB (.node l x r) k = searchB l k by simp [searchB, hk, hlt]]
        rw [ihl hl, mem_inorder_node]
        constructor
        · exact Or.inl
        · rintro (h | rfl | h)
          · exact h
          · exact absurd rfl hk
          · exact absurd (lt_trans hlt (hxc k h)) (lt_irrefl k)
      · rw [show searchB (.node l x r) k = searchB r k by simp [searchB, hk, hlt]]
        rw [ihr hr, mem_inorder_node]
        constructor
        · exact fun h => Or.inr (Or.inr h)
        · rintro (h | rfl | h)
          · exact absurd (hax k h) hlt
          · exact absurd rfl hk
          · exact h

/-! ### Insertion of a fresh leaf -/

lemma mem_bstInsert {t : Tree} {k j : Int} :
    j ∈ inorder (bstInsert t k) ↔ j = k ∨ j ∈ inorder t := by
  induction t with
  | nil => simp [bstInsert, inorder]
  | node l x r ihl ihr =>
    by_cases hk : k = x
    · subst hk
      rw [show bstInsert (.node l k r) k = .node l k r by simp [bstInsert]]
      rw [mem_inorder_node]
      tauto
    · by_cases hlt : k < x
      · simp only [bstInsert, if_neg hk, if_pos hlt, mem_inorder_node, ihl]
        tauto
      · simp only [bstInsert, if_neg hk, if_neg hlt, mem_inorder_node, ihr]
        tauto

lemma isBST_bstInsert {t : Tree} {k : Int} (h : IsBST t) (hk : k ∉ inorder t) :
    IsBST (bstInsert t k) := by
  induction t with
  | nil => simp [bstInsert, IsBST, inorder]
  | node l x r ihl ihr =>
    rcases isBST_node.mp h with ⟨hl, hr, hax, hxc⟩
    have hkx : k ≠ x := fun hcontra => hk (by rw [hcontra]; exact mem_inorder_node.mpr (Or.inr (Or.inl rfl)))
    have hknl : k ∉ inorder l := fun hc => hk (mem_inorder_node.mpr (Or.inl hc))
    have hknr : k ∉ inorder r := fun hc => hk (mem_inorder_node.mpr (Or.inr (Or.inr hc)))
    by_cases hlt : k < x
    · rw [show bstInsert (.node l x r) k = .node (bstInsert l k) x r by
        simp [bstInsert, hkx, hlt]]
      refine isBST_node.mpr ⟨ihl hl hknl, hr, ?_, hxc⟩
      intro a ha
      rcases mem_bstInsert.mp ha with rfl | ha
      · exact hlt
      · exact hax a ha
    · have hgt : x < k := lt_of_le_of_ne (not_lt.mp hlt) (Ne.symm hkx)
      rw [show bstInsert (.node l x r) k = .node l x (bstInsert r k) by
        simp [bstInsert, hkx, hlt]]
      refine isBST_node.mpr ⟨hl, ihr hr hknr, hax, ?_⟩
      intro c hc
      rcases mem_bstInsert.mp hc with rfl | hc
      · exact hgt
      · exact hxc c hc

lemma treeSize_bstInsert {t : Tree} {k : Int} (hk : k ∉ inorder t) :
    treeSize (bstInsert t k) = treeSize t + 1 := by
  induction t with
  | nil => rfl
  | node l x r ihl ihr =>
    have hkx : k ≠ x := fun hcontra => hk (by rw [hcontra]; exact mem_inorder_node.mpr (Or.inr (Or.inl rfl)))
    have hknl : k ∉ inorder l := fun hc => hk (mem_inorder_node.mpr (Or.inl hc))
    have hknr : k ∉ inorder r := fun hc => hk (mem_inorder_node.mpr (Or.inr (Or.inr hc)))
    by_cases hlt : k < x
    · rw [show bstInsert (.node l x r) k = .node (bstInsert l k) x r by
        simp [bstInsert, hkx, hlt]]
      simp [treeSize, ihl hknl]; omega
    · rw [show bstInsert (.node l x r) k = .node l x (bstInsert r k) by
        simp [bstInsert, hkx, hlt]]
      simp [treeSize, ihr hknr]; omega

/-! ### Removal: splices and the removal descent -/

lemma spliceMin_inorder {t : Tree} (h : t ≠ .nil) :
    inorder t = (spliceMin t).1 :: inorder (spliceMin t).2 := by
  induction t with
  | nil => exact absurd rfl h
  | node l x r ihl _ =>
    cases l with
    | nil => simp [spliceMin, inorder]
    | node ll lx lr =>
      have := ihl (by simp)
      simp only [spliceMin, inorder] at this ⊢
      rw [this]
      simp

lemma spliceMax_inorder {t : Tree} (h : t ≠ .nil) :
    inorder t = inorder (spliceMax t).2 ++ [(spliceMax t).1] := by
  induction t with
  | nil => exact absurd rfl h
  | node l x r _ ihr =>
    cases r with
    | nil => simp [spliceMax, inorder]
    | node rl rx rr =>
      have := ihr (by simp)
      simp only [spliceMax, inorder] at this ⊢
      rw [this]
      simp

lemma removeKey_inorder {t : Tree} {k : Int} (repl : Bool) (h : IsBST t)
    (hk : k ∈ inorder t) :
    inorder (removeKey repl t k).1 = (inorder t).erase k := by
  induction t with
  | nil => simp [inorder] at hk
  | node l x r ihl ihr =>
    rcases isBST_node.mp h with ⟨hl, hr, hax, hxc⟩
    have hknl : k ∉ inorder l → k ∉ inorder r → k = x := by
      intro h1 h2
      rcases mem_inorder_node.mp hk with h | h | h
      · exact absurd h h1
      · exact h
      · exact absurd h h2
    have hxnl : x ∉ inorder l := fun hc => absurd (hax x hc) (lt_irrefl x)
    by_cases hkx : k = x
    · subst hkx
      rw [show inorder (.node l k r) = inorder l ++ k :: inorder r from rfl,
        List.erase_append_right _ hxnl, List.erase_cons_head]
      cases l with
      | nil =>
        cases r with
        | nil => simp [removeKey, inorder]
        | node lb kb rb => simp [removeKey, inorder]
      | node la ka ra =>
        cases r with
        | nil => simp [removeKey, inorder]
        | node lb kb rb =>
          rw [show (removeKey repl (.node (.node la ka ra) k (.node lb kb rb)) k).1 =
              removeNodeWithTwoChildren repl (.node la ka ra) k (.node lb kb rb) by
            simp [removeKey]]
          cases repl with
          | true =>
            rw [show removeNodeWithTwoChildren true (.node la ka ra) k (.node lb kb rb) =
                .node (.node la ka ra) (spliceMin (.node lb kb rb)).1
                  (spliceMin (.node lb kb rb)).2 from rfl]
            rw [show inorder (Tree.node (.node la ka ra) (spliceMin (.node lb kb rb)).1
                (spliceMin (.node lb kb rb)).2) =
              inorder (.node la ka ra) ++ (spliceMin (.node lb kb rb)).1 ::
                inorder (spliceMin (.node lb kb rb)).2 from rfl]
            rw [← spliceMin_inorder (by simp)]
          | false =>
            rw [show removeNodeWithTwoChildren false (.node la ka ra) k (.node lb kb rb) =
              .node (spliceMax (.node la ka ra)).2 (spliceMax (.node la ka ra)).1
                (.node lb kb rb) from rfl]
            rw [show inorder (Tree.node (spliceMax (.node la ka ra)).2
                (spliceMax (.node la ka ra)).1 (.node lb kb rb)) =
              inorder (spliceMax (.node la ka ra)).2 ++ (spliceMax (.node la ka ra)).1 ::
                inorder (.node lb kb rb) from rfl]
            rw [show inorder (Tree.node la ka ra) = inorder (spliceMax (.node la ka ra)).2 ++
                [(spliceMax (.node la ka ra)).1] from spliceMax_inorder (by simp)]
            simp
    · by_cases hlt : k < x
      · have hkl : k ∈ inorder l := by
          rcases mem_inorder_node.mp hk with h | h | h
          · exact h
          · exact absurd h hkx
          · exact absurd (hxc k h) (not_lt.mpr (le_of_lt hlt))
        rw [show (removeKey repl (.node l x r) k).1 = .node (removeKey repl l k).1 x r by
          simp [removeKey, hkx, hlt]]
        rw [show inorder (Tree.node (removeKey repl l k).1 x r) =
            inorder (removeKey repl l k).1 ++ x :: inorder r from rfl,
          ihl hl hkl,
          show inorder (.node l x r) = inorder l ++ x :: inorder r from rfl,
          List.erase_append_left _ hkl]
      · have hkr : k ∈ inorder r := by
          rcases mem_inorder_node.mp hk with h | h | h
          · exact absurd (hax k h) hlt
          · exact absurd h hkx
          · exact h
        have hknotl : k ∉ inorder l := fun hc => absurd (hax k hc) hlt
        rw [show (removeKey repl (.node l x r) k).1 = .node l x (removeKey repl r k).1 by
          simp [removeKey, hkx, hlt]]
        rw [show inorder (Tree.node l x (removeKey repl r k).1) =
            inorder l ++ x :: inorder (removeKey repl r k).1 from rfl,
          ihr hr hkr,
          show inorder (.node l x r) = inorder l ++ x :: inorder r from rfl,
          List.erase_append_right _ hknotl,
          List.erase_cons_tail]
        exact fun hc => hkx (beq_iff_eq.mp hc).symm

lemma isBST_removeKey {t : Tree} {k : Int} (repl : Bool) (h : IsBST t)
    (hk : k ∈ inorder t) : IsBST (removeKey repl t k).1 := by
  unfold IsBST
  rw [removeKey_inorder repl h hk]
  exact h.sublist (List.erase_sublist k (inorder t))

lemma mem_removeKey {t : Tree} {k j : Int} (repl : Bool) (h : IsBST t)
    (hk : k ∈ inorder t) :
    j ∈ inorder (removeKey repl t k).1 ↔ j ≠ k ∧ j ∈ inorder t := by
  rw [removeKey_inorder repl h hk]
  exact (nodup_inorder h).mem_erase_iff

lemma length_removeKey {t : Tree} {k : Int} (repl : Bool) (h : IsBST t)
    (hk : k ∈ inorder t) :
    (inorder (removeKey repl t k).1).length = (inorder t).length - 1 := by
  rw [removeKey_inorder repl h hk]
  exact List.length_erase_of_mem hk

/-! ### Flatten and rebuild -/

lemma balTree_nil : balTree [] = .nil := by
  rw [balTree.eq_def]

lemma spineKeys_flatten (t : Tree) : ∀ h : Tree,
    spineKeys (flatten t h) = inorder t ++ spineKeys h := by
  induction t with
  | nil => intro h; simp [flatten, inorder]
  | node l x r ihl ihr =>
    intro h
    rw [flatten, ihl, spineKeys, ihr, inorder]
    simp

lemma spineDrop_nil (n : Nat) : spineDrop n .nil = .nil := by
  cases n <;> rfl

lemma spineDrop_add (m n : Nat) : ∀ t : Tree,
    spineDrop (m + n) t = spineDrop n (spineDrop m t) := by
  induction m with
  | zero => intro t; rw [Nat.zero_add]; rfl
  | succ m ih =>
    intro t
    cases t with
    | nil => rw [spineDrop_nil, spineDrop_nil, spineDrop_nil]
    | node l x r =>
      rw [show m + 1 + n = (m + n) + 1 by omega]
      rw [show spineDrop (m + n + 1) (Tree.node l x r) = spineDrop (m + n) r from rfl]
      rw [show spineDrop (m + 1) (Tree.node l x r) = spineDrop m r from rfl]
      exact ih r

lemma spineDrop_flatten (t : Tree) : ∀ h : Tree,
    spineDrop (treeSize t) (flatten t h) = h := by
  induction t with
  | nil => intro h; rfl
  | node l x r ihl ihr =>
    intro h
    rw [flatten, treeSize, show 1 + treeSize l + treeSize r
        = treeSize l + (1 + treeSize r) by omega,
      spineDrop_add, ihl]
    rw [show spineDrop (1 + treeSize r) (Tree.node l x (flatten r h))
        = spineDrop (treeSize r) (flatten r h) by
      rw [show 1 + treeSize r = treeSize r + 1 by omega]; rfl]
    exact ihr h

lemma spineKeys_spineDrop : ∀ (n : Nat) (t : Tree),
    spineKeys (spineDrop n t) = (spineKeys t).drop n := by
  intro n
  induction n with
  | zero => intro t; rfl
  | succ m ih =>
    intro t
    cases t with
    | nil => rw [spineDrop_nil]; rfl
    | node l x r => rw [show spineDrop (m + 1) (Tree.node l x r) = spineDrop m r from rfl,
        ih, spineKeys]; rfl

lemma nthKey_take : ∀ (c n : Nat) (l : List Int), c < n →
    nthKey (l.take n) c = nthKey l c := by
  intro c
  induction c with
  | zero =>
    intro n l h
    cases n with
    | zero => omega
    | succ m => cases l <;> rfl
  | succ c ih =>
    intro n l h
    cases n with
    | zero => omega
    | succ m =>
      cases l with
      | nil => rfl
      | cons a l => rw [List.take_succ_cons, nthKey, nthKey]; exact ih m l (by omega)

lemma nthKey_drop : ∀ (m c : Nat) (l : List Int),
    nthKey (l.drop m) c = nthKey l (m + c) := by
  intro m
  induction m with
  | zero => intro c l; rw [List.drop_zero, Nat.zero_add]
  | succ m ih =>
    intro c l
    cases l with
    | nil => simp [nthKey]
    | cons a l =>
      rw [List.drop_succ_cons, ih, show m + 1 + c = (m + c) + 1 by omega, nthKey]

lemma nthKey_append_left : ∀ (l1 l2 : List Int) (n : Nat), n < l1.length →
    nthKey (l1 ++ l2) n = nthKey l1 n := by
  intro l1
  induction l1 with
  | nil => intro l2 n h; simp at h
  | cons a l1 ih =>
    intro l2 n h
    cases n with
    | zero => rfl
    | succ m => rw [List.cons_append, nthKey, nthKey]; exact ih l2 m (by simpa using h)

lemma nthKey_append_length : ∀ (l1 : List Int) (y : Int) (l2 : List Int),
    nthKey (l1 ++ y :: l2) l1.length = y := by
  intro l1
  induction l1 with
  | nil => intro y l2; rfl
  | cons a l1 ih => intro y l2; rw [List.cons_append, List.length_cons, nthKey]; exact ih y l2

lemma take_nth_drop : ∀ (n : Nat) (l : List Int), n < l.length →
    l.take n ++ nthKey l n :: l.drop (n + 1) = l := by
  intro n
  induction n with
  | zero =>
    intro l h
    cases l with
    | nil => simp at h
    | cons a l => simp [nthKey]
  | succ m ih =>
    intro l h
    cases l with
    | nil => simp at h
    | cons a l =>
      rw [List.take_succ_cons, nthKey, List.drop_succ_cons, List.cons_append]
      rw [ih l (by simpa using h)]

lemma inorder_balTree_aux : ∀ (n : Nat) (xs : List Int), xs.length = n →
    inorder (balTree xs) = xs := by
  intro n
  induction n using Nat.strong_induction_on with
  | _ n ih =>
    intro xs hn
    cases xs with
    | nil => rw [balTree_nil]; rfl
    | cons y ys =>
      rw [balTree, inorder]
      have hlt : (ys.length + 1) / 2 < (y :: ys).length := by simp; omega
      have h1 : inorder (balTree ((y :: ys).take ((ys.length + 1) / 2)))
          = (y :: ys).take ((ys.length + 1) / 2) := by
        refine ih _ ?_ _ rfl
        rw [← hn]
        simp [List.length_take]; omega
      have h2 : inorder (balTree ((y :: ys).drop ((ys.length + 1) / 2 + 1)))
          = (y :: ys).drop ((ys.length + 1) / 2 + 1) := by
        refine ih _ ?_ _ rfl
        rw [← hn]
        simp; omega
      rw [h1, h2]
      exact take_nth_drop _ _ hlt

lemma inorder_balTree (xs : List Int) : inorder (balTree xs) = xs :=
  inorder_balTree_aux xs.length xs rfl

lemma treeSize_balTree (xs : List Int) : treeSize (balTree xs) = xs.length := by
  rw [← length_inorder, inorder_balTree]

lemma isBST_balTree {xs : List Int} (h : xs.Pairwise (fun a b => a < b)) :
    IsBST (balTree xs) := by
  unfold IsBST
  rw [inorder_balTree]
  exact h

lemma splitBalancedB_balTree_aux : ∀ (n : Nat) (xs : List Int), xs.length = n →
    splitBalancedB (balTree xs) = true := by
  intro n
  induction n using Nat.strong_induction_on with
  | _ n ih =>
    intro xs hn
    cases xs with
    | nil => rw [balTree_nil]; rfl
    | cons y ys =>
      rw [balTree, splitBalancedB]
      have htake : ((y :: ys).take ((ys.length + 1) / 2)).length = (ys.length + 1) / 2 := by
        simp [List.length_take]; omega
      have hdrop : ((y :: ys).drop ((ys.length + 1) / 2 + 1)).length
          = ys.length - (ys.length + 1) / 2 := by
        simp
      have hl := ih (((y :: ys).take ((ys.length + 1) / 2)).length)
        (by rw [htake, ← hn]; simp; omega) _ rfl
      have hr := ih (((y :: ys).drop ((ys.length + 1) / 2 + 1)).length)
        (by rw [hdrop, ← hn]; simp; omega) _ rfl
      rw [treeSize_balTree, treeSize_balTree, htake, hdrop, hl, hr]
      simp only [Bool.and_true]
      rw [Bool.and_eq_true, decide_eq_true_iff, decide_eq_true_iff]
      omega

lemma splitBalancedB_balTree (xs : List Int) : splitBalancedB (balTree xs) = true :=
  splitBalancedB_balTree_aux xs.length xs rfl

lemma siblingBalancedB_of_splitBalancedB : ∀ t : Tree,
    splitBalancedB t = true → siblingBalancedB t = true := by
  intro t
  induction t with
  | nil => intro _; rfl
  | node l x r ihl ihr =>
    intro h
    rw [splitBalancedB, Bool.and_eq_true, Bool.and_eq_true, Bool.and_eq_true] at h
    obtain ⟨⟨⟨h1, h2⟩, h3⟩, h4⟩ := h
    rw [decide_eq_true_iff] at h1 h2
    rw [siblingBalancedB, Bool.and_eq_true, Bool.and_eq_true, Bool.and_eq_true]
    refine ⟨⟨⟨?_, ?_⟩, ihl h3⟩, ihr h4⟩ <;> · rw [decide_eq_true_iff]; omega

lemma buildTree_spec : ∀ (n : Nat) (h : Tree), n < (spineKeys h).length →
    buildTree n h =
      .node (balTree ((spineKeys h).take n)) (nthKey (spineKeys h) n)
        (spineDrop (n + 1) h) := by
  intro n
  induction n using Nat.strong_induction_on with
  | _ n ihn =>
    intro h hlen
    cases n with
    | zero =>
      cases h with
      | nil => simp [spineKeys] at hlen
      | node l x r =>
        rw [buildTree, List.take_zero, balTree]
        rfl
    | succ m =>
      have hc : (m + 1) / 2 < (spineKeys h).length := by omega
      have hfirst := ihn ((m + 1) / 2) (by omega) h hc
      have hlen2 : m / 2 < (spineKeys (spineDrop ((m + 1) / 2 + 1) h)).length := by
        rw [spineKeys_spineDrop, List.length_drop]
        omega
      have hsecond := ihn (m / 2) (by omega) _ hlen2
      simp only [buildTree, hfirst, Tree.right]
      rw [hsecond]
      simp only []
      rw [spineKeys_spineDrop]
      have e1 : ((spineKeys h).drop ((m + 1) / 2 + 1)).take (m / 2)
          = ((spineKeys h).take (m + 1)).drop ((m + 1) / 2 + 1) := by
        rw [List.drop_take]
        congr 1
        omega
      have e2 : nthKey ((spineKeys h).drop ((m + 1) / 2 + 1)) (m / 2)
          = nthKey (spineKeys h) (m + 1) := by
        rw [nthKey_drop]
        congr 1
        omega
      have e3 : spineDrop (m / 2 + 1) (spineDrop ((m + 1) / 2 + 1) h)
          = spineDrop (m + 1 + 1) h := by
        rw [← spineDrop_add]
        congr 1
        omega
      rw [e1, e2, e3]
      have e4 : balTree ((spineKeys h).take (m + 1))
          = .node (balTree (((spineKeys h).take (m + 1)).take ((m + 1) / 2)))
              (nthKey ((spineKeys h).take (m + 1)) ((m + 1) / 2))
              (balTree (((spineKeys h).take (m + 1)).drop ((m + 1) / 2 + 1))) := by
        have hne : (spineKeys h).take (m + 1) ≠ [] := by
          have hl : ((spineKeys h).take (m + 1)).length = m + 1 := by
            rw [List.length_take]
            omega
          intro hcontra
          rw [hcontra] at hl
          simp at hl
        obtain ⟨z, zs, hzzs⟩ := List.exists_cons_of_ne_nil hne
        have hzlen : zs.length + 1 = m + 1 := by
          have := congrArg List.length hzzs
          simp [List.length_take] at this
          omega
        rw [hzzs, balTree, ← hzzs, hzlen]
      rw [e4]
      have e5 : ((spineKeys h).take (m + 1)).take ((m + 1) / 2)
          = (spineKeys h).take ((m + 1) / 2) := by
        rw [List.take_take]
        congr 1
        omega
      have e6 : nthKey ((spineKeys h).take (m + 1)) ((m + 1) / 2)
          = nthKey (spineKeys h) ((m + 1) / 2) := nthKey_take _ _ _ (by omega)
      rw [e5, e6]

lemma rebuildSubtree_eq (t : Tree) : rebuildSubtree (treeSize t) t = balTree (inorder t) := by
  unfold rebuildSubtree
  have hsk : spineKeys (flatten t dummyNode) = inorder t ++ [-1] := by
    rw [spineKeys_flatten]; rfl
  have hlen : (spineKeys (flatten t dummyNode)).length = treeSize t + 1 := by
    rw [hsk]; simp [length_inorder]
  rw [buildTree_spec (treeSize t) _ (by omega)]
  rw [show ∀ a k r, (Tree.node a k r).left = a from fun a k r => rfl]
  congr 1
  rw [hsk]
  rw [show treeSize t = (inorder t).length from (length_inorder t).symm]
  exact List.take_left _ _

lemma inorder_rebuildSubtree {t : Tree} {n : Nat} (h : n = treeSize t) :
    inorder (rebuildSubtree n t) = inorder t := by
  rw [h, rebuildSubtree_eq, inorder_balTree]

lemma isBST_rebuildSubtree {t : Tree} {n : Nat} (hbst : IsBST t) (h : n = treeSize t) :
    IsBST (rebuildSubtree n t) := by
  unfold IsBST
  rw [inorder_rebuildSubtree h]
  exact hbst

lemma inorder_graftAlong {target repl : Tree} (hrep : inorder repl = inorder target)
    (k : Int) : ∀ t : Tree, inorder (graftAlong k target repl t) = inorder t := by
  intro t
  induction t with
  | nil =>
    rw [graftAlong]
    by_cases h : Tree.nil = target
    · rw [if_pos h, hrep, ← h]
    · rw [if_neg h]
  | node l x r ihl ihr =>
    rw [graftAlong]
    by_cases h : Tree.node l x r = target
    · rw [if_pos h, hrep, ← h]
    · rw [if_neg h]
      by_cases h1 : k < x
      · rw [if_pos h1]
        rw [show ∀ a b c, inorder (Tree.node a b c) = inorder a ++ b :: inorder c
          from fun a b c => rfl]
        rw [ihl]
        rfl
      · rw [if_neg h1]
        by_cases h2 : x < k
        · rw [if_pos h2]
          rw [show ∀ a b c, inorder (Tree.node a b c) = inorder a ++ b :: inorder c
            from fun a b c => rfl]
          rw [ihr]
          rfl
        · rw [if_neg h2]

/-! ### The scapegoat search -/

lemma ancestors_nonnil {t : Tree} {k : Int} : ∀ u ∈ ancestors t k, u ≠ Tree.nil := by
  induction t with
  | nil => intro u hu; simp [ancestors] at hu
  | node l x r ihl ihr =>
    intro u hu
    by_cases hk : k = x
    · simp [ancestors, hk] at hu
    · by_cases hlt : k < x
      · rw [show ancestors (.node l x r) k = .node l x r :: ancestors l k by
          simp [ancestors, hk, hlt]] at hu
        rcases List.mem_cons.mp hu with rfl | hu
        · simp
        · exact ihl u hu
      · rw [show ancestors (.node l x r) k = .node l x r :: ancestors r k by
          simp [ancestors, hk, hlt]] at hu
        rcases List.mem_cons.mp hu with rfl | hu
        · simp
        · exact ihr u hu

lemma ancestors_head {t : Tree} {k : Int} (h : ancestors t k ≠ []) :
    ∃ rest, ancestors t k = t :: rest := by
  cases t with
  | nil => simp [ancestors] at h
  | node l x r =>
    by_cases hk : k = x
    · simp [ancestors, hk] at h
    · by_cases hlt : k < x
      · exact ⟨ancestors l k, by simp [ancestors, hk, hlt]⟩
      · exact ⟨ancestors r k, by simp [ancestors, hk, hlt]⟩

lemma ancestors_chain {t : Tree} {k : Int} :
    List.Chain' (fun p c => p.left = c ∨ p.right = c) (ancestors t k) := by
  induction t with
  | nil => simp [ancestors]
  | node l x r ihl ihr =>
    by_cases hk : k = x
    · simp [ancestors, hk]
    · by_cases hlt : k < x
      · rw [show ancestors (.node l x r) k = .node l x r :: ancestors l k by
          simp [ancestors, hk, hlt]]
        rw [List.chain'_cons']
        refine ⟨?_, ihl⟩
        intro y hy
        by_cases hne : ancestors l k = []
        · rw [hne] at hy; simp at hy
        · obtain ⟨rest, hrest⟩ := ancestors_head hne
          rw [hrest] at hy
          simp at hy
          left
          rw [hy]
          rfl
      · rw [show ancestors (.node l x r) k = .node l x r :: ancestors r k by
          simp [ancestors, hk, hlt]]
        rw [List.chain'_cons']
        refine ⟨?_, ihr⟩
        intro y hy
        by_cases hne : ancestors r k = []
        · rw [hne] at hy; simp at hy
        · obtain ⟨rest, hrest⟩ := ancestors_head hne
          rw [hrest] at hy
          simp at hy
          right
          rw [hy]
          rfl

lemma getD_append_singleton (l1 : List Tree) (y : Tree) :
    (l1 ++ [y]).getD l1.length Tree.nil = y := by
  induction l1 with
  | nil => rfl
  | cons a l1 ih => simp [ih]

lemma fsgLoop_spec (a b : Nat) : ∀ (anc : List Tree) (curr : Tree) (i sz : Nat),
    sz = treeSize curr →
    List.Chain' (fun c p => p.left = c ∨ p.right = c) (curr :: anc) →
    (∀ u ∈ anc, u ≠ Tree.nil) →
    ∃ j, j ≤ anc.length ∧
      fsgLoop a b curr sz i (anc ++ [Tree.nil]) =
        some ((curr :: anc).getD j Tree.nil, (curr :: anc).getD (j + 1) Tree.nil,
          treeSize ((curr :: anc).getD j Tree.nil)) ∧
      (∀ m : Nat, m < j →
        ¬ (i + m > getAlphaDeepHeight a b (treeSize ((curr :: anc).getD m Tree.nil)))) ∧
      (i + j > getAlphaDeepHeight a b (treeSize ((curr :: anc).getD j Tree.nil))
        ∨ j = anc.length) := by
  intro anc
  induction anc with
  | nil =>
    intro curr i sz hsz hchain hnonnil
    refine ⟨0, Nat.le_refl 0, ?_, ?_, Or.inr rfl⟩
    · subst hsz
      simp [fsgLoop]
    · intro m hm; omega
  | cons p rest ih =>
    intro curr i sz hsz hchain hnonnil
    have hp : p ≠ Tree.nil := hnonnil p (by simp)
    cases p with
    | nil => exact absurd rfl hp
    | node pl px pr =>
      have hstep : (Tree.node pl px pr :: rest) ++ [Tree.nil]
          = Tree.node pl px pr :: (rest ++ [Tree.nil]) := rfl
      by_cases hcond : i > getAlphaDeepHeight a b sz
      · refine ⟨0, by omega, ?_, ?_, ?_⟩
        · rw [hstep, fsgLoop]
          subst hsz
          simp [hcond]
        · intro m hm; omega
        · left
          rw [Nat.add_zero]
          rw [show treeSize ((curr :: Tree.node pl px pr :: rest).getD 0 Tree.nil)
            = treeSize curr from rfl]
          rw [← hsz]
          exact hcond
      · have hlink : (Tree.node pl px pr).left = curr ∨ (Tree.node pl px pr).right = curr :=
          (List.chain'_cons.mp hchain).1
        have hsz' : sz + 1 + treeSize (if pl = curr then pr else pl)
            = treeSize (Tree.node pl px pr) := by
          by_cases hpl : pl = curr
          · rw [if_pos hpl, show treeSize (Tree.node pl px pr)
              = 1 + treeSize pl + treeSize pr from rfl, hpl, ← hsz]
            omega
          · have hpr : pr = curr := by
              rcases hlink with h | h
              · exact absurd h hpl
              · exact h
            rw [if_neg hpl, show treeSize (Tree.node pl px pr)
              = 1 + treeSize pl + treeSize pr from rfl, hpr, ← hsz]
            omega
        obtain ⟨j, hle, heq, hprev, hlast⟩ :=
          ih (Tree.node pl px pr) (i + 1) (treeSize (Tree.node pl px pr)) rfl
            (List.chain'_cons.mp hchain).2
            (fun u hu => hnonnil u (List.mem_cons_of_mem _ hu))
        refine ⟨j + 1, by simpa using Nat.succ_le_succ hle, ?_, ?_, ?_⟩
        · rw [hstep, fsgLoop, if_neg hcond, hsz']
          rw [show ∀ z : Tree, (curr :: Tree.node pl px pr :: rest).getD (j + 1) z
            = (Tree.node pl px pr :: rest).getD j z from fun z => rfl]
          rw [show ∀ z : Tree, (curr :: Tree.node pl px pr :: rest).getD (j + 1 + 1) z
            = (Tree.node pl px pr :: rest).getD (j + 1) z from fun z => rfl]
          exact heq
        · intro m hm
          cases m with
          | zero =>
            rw [Nat.add_zero]
            rw [show treeSize ((curr :: Tree.node pl px pr :: rest).getD 0 Tree.nil)
              = treeSize curr from rfl]
            rw [← hsz]
            exact hcond
          | succ m' =>
            have := hprev m' (by omega)
            rw [show i + 1 + m' = i + (m' + 1) by omega] at this
            rw [show ∀ z : Tree, (curr :: Tree.node pl px pr :: rest).getD (m' + 1) z
              = (Tree.node pl px pr :: rest).getD m' z from fun z => rfl]
            exact this
        · rcases hlast with h | h
          · left
            rw [show i + 1 + j = i + (j + 1) by omega] at h
            rw [show ∀ z : Tree, (curr :: Tree.node pl px pr :: rest).getD (j + 1) z
              = (Tree.node pl px pr :: rest).getD j z from fun z => rfl]
            exact h
          · right
            rw [h]
            rfl

lemma findScapegoat_spec (a b : Nat) (path : List Tree) (hne : path ≠ [])
    (hchain : List.Chain' (fun c p => p.left = c ∨ p.right = c) path)
    (hnonnil : ∀ u ∈ path, u ≠ Tree.nil) :
    ∃ j, j < path.length ∧
      findScapegoat a b (path ++ [Tree.nil]) =
        some (path.getD j Tree.nil, path.getD (j + 1) Tree.nil,
          treeSize (path.getD j Tree.nil)) ∧
      (∀ m : Nat, m < j →
        ¬ (m + 1 > getAlphaDeepHeight a b (treeSize (path.getD m Tree.nil)))) ∧
      (j + 1 > getAlphaDeepHeight a b (treeSize (path.getD j Tree.nil))
        ∨ j = path.length - 1) := by
  obtain ⟨c, anc, rfl⟩ := List.exists_cons_of_ne_nil hne
  obtain ⟨j, hle, heq, hprev, hlast⟩ :=
    fsgLoop_spec a b anc c 1 (treeSize c) rfl hchain
      (fun u hu => hnonnil u (List.mem_cons_of_mem _ hu))
  refine ⟨j, by simp; omega, ?_, ?_, ?_⟩
  · rw [show (c :: anc) ++ [Tree.nil] = c :: (anc ++ [Tree.nil]) from rfl, findScapegoat]
    exact heq
  · intro m hm
    have := hprev m hm
    rwa [Nat.add_comm 1 m] at this
  · rcases hlast with h | h
    · left
      rwa [Nat.add_comm 1 j] at h
    · right
      rw [h]
      rfl

/-! ### Operation-level correctness -/

lemma getD_mem {l : List Tree} {j : Nat} (h : j < l.length) : l.getD j Tree.nil ∈ l := by
  induction l generalizing j with
  | nil => simp at h
  | cons a l ih =>
    cases j with
    | zero => simp
    | succ m =>
      rw [List.getD_cons_succ]
      exact List.mem_cons_of_mem _ (ih (by simpa using h))

lemma treeSize_of_inorder_eq {t1 t2 : Tree} (h : inorder t1 = inorder t2) :
    treeSize t1 = treeSize t2 := by
  rw [← length_inorder, ← length_inorder, h]

lemma mul_le_mul_self_right {a b n : Nat} (hle : a ≤ b) : a * n ≤ n * b :=
  calc a * n = n * a := Nat.mul_comm _ _
  _ ≤ n * b := Nat.mul_le_mul_left _ hle

lemma maxSize_bound {a b szOld mxOld : Nat} (hle : a ≤ b) (hold : a * mxOld ≤ szOld * b) :
    a * max mxOld (szOld + 1) ≤ (szOld + 1) * b := by
  rcases Nat.le_total mxOld (szOld + 1) with h | h
  · rw [Nat.max_eq_right h]
    exact mul_le_mul_self_right hle
  · rw [Nat.max_eq_left h]
    calc a * mxOld ≤ szOld * b := hold
    _ ≤ (szOld + 1) * b := Nat.mul_le_mul_right _ (by omega)

lemma insert_eq_found {s : SGTree} {k : Int} (h : searchB s.root k = true) :
    s.insert k = (s, false) := by
  unfold SGTree.insert
  rw [if_pos h]

lemma insert_eq_not_found {s : SGTree} {k : Int} (h : searchB s.root k = false) :
    s.insert k =
      (let root1 := bstInsert s.root k
       let size1 := s.size + 1
       let maxSize1 := max s.maxSize size1
       let path := (ancestors root1 k).reverse
       if path.length ≥ 1 ∧ path.length > getAlphaDeepHeight s.alphaNum s.alphaDen size1 then
         match findScapegoat s.alphaNum s.alphaDen (path ++ [Tree.nil]) with
         | some (sg, par, sz) =>
           if par = Tree.nil then
             ({ s with root := rebuildSubtree sz sg, size := size1, maxSize := size1 }, true)
           else
             ({ s with
                  root := graftAlong k sg (rebuildSubtree sz sg) root1,
                  size := size1,
                  maxSize := maxSize1 }, true)
         | none => ({ s with root := root1, size := size1, maxSize := maxSize1 }, true)
       else ({ s with root := root1, size := size1, maxSize := maxSize1 }, true)) := by
  unfold SGTree.insert
  rw [if_neg (by rw [h]; simp)]

lemma remove_eq_found {s : SGTree} {k : Int} (h : searchB s.root k = true) :
    s.remove k =
      (let p := removeKey s.replaceWithSucc s.root k
       let repl1 := if p.2 then ! s.replaceWithSucc else s.replaceWithSucc
       let size1 := s.size - 1
       if size1 * s.alphaDen ≤ s.alphaNum * s.maxSize then
         ({ s with
              root := rebuildSubtree size1 p.1,
              size := size1,
              maxSize := size1,
              replaceWithSucc := repl1 }, true)
       else ({ s with root := p.1, size := size1, replaceWithSucc := repl1 }, true)) := by
  unfold SGTree.remove
  rw [if_pos h]

lemma remove_eq_not_found {s : SGTree} {k : Int} (h : searchB s.root k = false) :
    s.remove k = (s, false) := by
  unfold SGTree.remove
  rw [if_neg (by rw [h]; simp)]

lemma insert_correct {s : SGTree} (hInv : Inv s) (k : Int) :
    Inv (s.insert k).1 ∧
    (∀ j : Int, j ∈ inorder (s.insert k).1.root ↔ j = k ∨ j ∈ inorder s.root) ∧
    (s.insert k).2 = ! searchB s.root k ∧
    (s.insert k).1.alphaNum = s.alphaNum ∧ (s.insert k).1.alphaDen = s.alphaDen ∧
    (s.insert k).1.replaceWithSucc = s.replaceWithSucc := by
  obtain ⟨hbst, hsize, hbal, ha1, ha2⟩ := hInv
  by_cases hfound : searchB s.root k = true
  · rw [insert_eq_found hfound]
    have hk : k ∈ inorder s.root := (searchB_eq hbst k).mp hfound
    refine ⟨⟨hbst, hsize, hbal, ha1, ha2⟩, ?_, by rw [hfound]; rfl, rfl, rfl, rfl⟩
    intro j
    constructor
    · exact Or.inr
    · rintro (rfl | hj)
      · exact hk
      · exact hj
  · have hfound' : searchB s.root k = false := by
      cases hsb : searchB s.root k
      · rfl
      · exact absurd hsb hfound
    have hknotin : k ∉ inorder s.root := fun hc => hfound ((searchB_eq hbst k).mpr hc)
    have hbst1 : IsBST (bstInsert s.root k) := isBST_bstInsert hbst hknotin
    have hmem1 : ∀ j : Int, j ∈ inorder (bstInsert s.root k) ↔ j = k ∨ j ∈ inorder s.root :=
      fun j => mem_bstInsert
    have hts1 : treeSize (bstInsert s.root k) = s.size + 1 := by
      rw [treeSize_bstInsert hknotin, hsize]
    rw [insert_eq_not_found hfound']
    simp only []
    by_cases htrig : ((ancestors (bstInsert s.root k) k).reverse.length ≥ 1 ∧
        (ancestors (bstInsert s.root k) k).reverse.length >
          getAlphaDeepHeight s.alphaNum s.alphaDen (s.size + 1))
    · rw [if_pos htrig]
      have hne : (ancestors (bstInsert s.root k) k).reverse ≠ [] := by
        intro hc
        rw [hc] at htrig
        simp at htrig
      have hchain : List.Chain' (fun c p => p.left = c ∨ p.right = c)
          (ancestors (bstInsert s.root k) k).reverse :=
        (List.chain'_reverse).mpr ancestors_chain
      have hnonnil : ∀ u ∈ (ancestors (bstInsert s.root k) k).reverse, u ≠ Tree.nil :=
        fun u hu => ancestors_nonnil u (List.mem_reverse.mp hu)
      obtain ⟨j, hjlt, heq, hprev, hlast⟩ :=
        findScapegoat_spec s.alphaNum s.alphaDen _ hne hchain hnonnil
      rw [heq]
      simp only []
      by_cases hparnil :
          (ancestors (bstInsert s.root k) k).reverse.getD (j + 1) Tree.nil = Tree.nil
      · rw [if_pos hparnil]
        -- the scapegoat is the root: j is the last index
        have hjlast : j = (ancestors (bstInsert s.root k) k).reverse.length - 1 := by
          by_contra hne'
          have hj1 : j + 1 < (ancestors (bstInsert s.root k) k).reverse.length := by omega
          exact hnonnil _ (getD_mem hj1) hparnil
        have hanc_ne : ancestors (bstInsert s.root k) k ≠ [] := by
          intro hc
          rw [hc] at hne
          simp at hne
        obtain ⟨rest, hrest⟩ := ancestors_head hanc_ne
        have hsg_root : (ancestors (bstInsert s.root k) k).reverse.getD j Tree.nil
            = bstInsert s.root k := by
          rw [hjlast, hrest, List.reverse_cons]
          rw [show (rest.reverse ++ [bstInsert s.root k]).length - 1 = rest.reverse.length by
            simp]
          exact getD_append_singleton _ _
        rw [hsg_root]
        have hreb : inorder (rebuildSubtree (treeSize (bstInsert s.root k))
            (bstInsert s.root k)) = inorder (bstInsert s.root k) :=
          inorder_rebuildSubtree rfl
        refine ⟨⟨?_, ?_, ?_, ha1, ha2⟩, ?_, by rw [hfound']; rfl, rfl, rfl, rfl⟩
        · show IsBST (rebuildSubtree (treeSize (bstInsert s.root k)) (bstInsert s.root k))
          unfold IsBST
          rw [hreb]
          exact hbst1
        · show s.size + 1
            = treeSize (rebuildSubtree (treeSize (bstInsert s.root k)) (bstInsert s.root k))
          rw [treeSize_of_inorder_eq hreb, hts1]
        · show s.alphaNum * (s.size + 1) ≤ (s.size + 1) * s.alphaDen
          exact mul_le_mul_self_right (by omega)
        · intro j'
          show j' ∈ inorder (rebuildSubtree (treeSize (bstInsert s.root k))
            (bstInsert s.root k)) ↔ j' = k ∨ j' ∈ inorder s.root
          rw [hreb]
          exact hmem1 j'
      · rw [if_neg hparnil]
        have hreb : inorder (rebuildSubtree
            (treeSize ((ancestors (bstInsert s.root k) k).reverse.getD j Tree.nil))
            ((ancestors (bstInsert s.root k) k).reverse.getD j Tree.nil))
            = inorder ((ancestors (bstInsert s.root k) k).reverse.getD j Tree.nil) :=
          inorder_rebuildSubtree rfl
        have hgraft : inorder (graftAlong k
            ((ancestors (bstInsert s.root k) k).reverse.getD j Tree.nil)
            (rebuildSubtree
              (treeSize ((ancestors (bstInsert s.root k) k).reverse.getD j Tree.nil))
              ((ancestors (bstInsert s.root k) k).reverse.getD j Tree.nil))
            (bstInsert s.root k)) = inorder (bstInsert s.root k) :=
          inorder_graftAlong hreb k _
        refine ⟨⟨?_, ?_, ?_, ha1, ha2⟩, ?_, by rw [hfound']; rfl, rfl, rfl, rfl⟩
        · show IsBST (graftAlong k
            ((ancestors (bstInsert s.root k) k).reverse.getD j Tree.nil)
            (rebuildSubtree
              (treeSize ((ancestors (bstInsert s.root k) k).reverse.getD j Tree.nil))
              ((ancestors (bstInsert s.root k) k).reverse.getD j Tree.nil))
            (bstInsert s.root k))
          unfold IsBST
          rw [hgraft]
          exact hbst1
        · show s.size + 1 = treeSize (graftAlong k
            ((ancestors (bstInsert s.root k) k).reverse.getD j Tree.nil)
            (rebuildSubtree
              (treeSize ((ancestors (bstInsert s.root k) k).reverse.getD j Tree.nil))
              ((ancestors (bstInsert s.root k) k).reverse.getD j Tree.nil))
            (bstInsert s.root k))
          rw [treeSize_of_inorder_eq hgraft, hts1]
        · show s.alphaNum * max s.maxSize (s.size + 1) ≤ (s.size + 1) * s.alphaDen
          exact maxSize_bound (by omega) hbal
        · intro j'
          show j' ∈ inorder (graftAlong k
            ((ancestors (bstInsert s.root k) k).reverse.getD j Tree.nil)
            (rebuildSubtree
              (treeSize ((ancestors (bstInsert s.root k) k).reverse.getD j Tree.nil))
              ((ancestors (bstInsert s.root k) k).reverse.getD j Tree.nil))
            (bstInsert s.root k)) ↔ j' = k ∨ j' ∈ inorder s.root
          rw [hgraft]
          exact hmem1 j'
    · rw [if_neg htrig]
      refine ⟨⟨hbst1, ?_, ?_, ha1, ha2⟩, ?_, by rw [hfound']; rfl, rfl, rfl, rfl⟩
      · show s.size + 1 = treeSize (bstInsert s.root k)
        rw [hts1]
      · show s.alphaNum * max s.maxSize (s.size + 1) ≤ (s.size + 1) * s.alphaDen
        exact maxSize_bound (by omega) hbal
      · intro j'
        exact hmem1 j'

lemma remove_correct {s : SGTree} (hInv : Inv s) (k : Int) :
    Inv (s.remove k).1 ∧
    (∀ j : Int, j ∈ inorder (s.remove k).1.root ↔ j ≠ k ∧ j ∈ inorder s.root) ∧
    (s.remove k).2 = searchB s.root k ∧
    (s.remove k).1.alphaNum = s.alphaNum ∧ (s.remove k).1.alphaDen = s.alphaDen := by
  obtain ⟨hbst, hsize, hbal, ha1, ha2⟩ := hInv
  by_cases hfound : searchB s.root k = true
  · have hk : k ∈ inorder s.root := (searchB_eq hbst k).mp hfound
    have hsize_pos : 1 ≤ s.size := by
      rw [hsize, ← length_inorder]
      exact List.length_pos_of_mem hk
    have hbst1 : IsBST (removeKey s.replaceWithSucc s.root k).1 :=
      isBST_removeKey _ hbst hk
    have hmem1 : ∀ j : Int, j ∈ inorder (removeKey s.replaceWithSucc s.root k).1
        ↔ j ≠ k ∧ j ∈ inorder s.root := fun j => mem_removeKey _ hbst hk
    have hts1 : treeSize (removeKey s.replaceWithSucc s.root k).1 = s.size - 1 := by
      rw [← length_inorder, length_removeKey _ hbst hk, length_inorder, hsize]
    rw [remove_eq_found hfound]
    simp only []
    by_cases hcond : (s.size - 1) * s.alphaDen ≤ s.alphaNum * s.maxSize
    · rw [if_pos hcond]
      have hreb : inorder (rebuildSubtree (s.size - 1)
          (removeKey s.replaceWithSucc s.root k).1)
          = inorder (removeKey s.replaceWithSucc s.root k).1 :=
        inorder_rebuildSubtree hts1.symm
      refine ⟨⟨?_, ?_, ?_, ha1, ha2⟩, ?_, by rw [hfound], rfl, rfl⟩
      · show IsBST (rebuildSubtree (s.size - 1) (removeKey s.replaceWithSucc s.root k).1)
        unfold IsBST
        rw [hreb]
        exact hbst1
      · show s.size - 1
          = treeSize (rebuildSubtree (s.size - 1) (removeKey s.replaceWithSucc s.root k).1)
        rw [treeSize_of_inorder_eq hreb, hts1]
      · show s.alphaNum * (s.size - 1) ≤ (s.size - 1) * s.alphaDen
        exact mul_le_mul_self_right (by omega)
      · intro j
        show j ∈ inorder (rebuildSubtree (s.size - 1)
          (removeKey s.replaceWithSucc s.root k).1) ↔ j ≠ k ∧ j ∈ inorder s.root
        rw [hreb]
        exact hmem1 j
    · rw [if_neg hcond]
      refine ⟨⟨hbst1, ?_, ?_, ha1, ha2⟩, ?_, by rw [hfound], rfl, rfl⟩
      · show s.size - 1 = treeSize (removeKey s.replaceWithSucc s.root k).1
        rw [hts1]
      · show s.alphaNum * s.maxSize ≤ (s.size - 1) * s.alphaDen
        exact Nat.le_of_lt (Nat.lt_of_not_le hcond)
      · intro j
        exact hmem1 j
  · have hfound' : searchB s.root k = false := by
      cases hsb : searchB s.root k
      · rfl
      · exact absurd hsb hfound
    have hknotin : k ∉ inorder s.root := fun hc => hfound ((searchB_eq hbst k).mpr hc)
    rw [remove_eq_not_found hfound']
    refine ⟨⟨hbst, hsize, hbal, ha1, ha2⟩, ?_, by rw [hfound'], rfl, rfl⟩
    intro j
    constructor
    · intro hj
      refine ⟨?_, hj⟩
      rintro rfl
      exact hknotin hj
    · exact fun hj => hj.2

/-! ### Sequences of public calls -/

lemma modelStepKeys_nodup {ks : List Int} (h : ks.Nodup) (op : Op) :
    (modelStepKeys ks op).Nodup := by
  cases op with
  | ins k =>
    show (if k ∈ ks then ks else k :: ks).Nodup
    by_cases hk : k ∈ ks
    · rw [if_pos hk]; exact h
    · rw [if_neg hk]; exact List.nodup_cons.mpr ⟨hk, h⟩
  | del k => exact h.erase k
  | qry k => exact h

lemma step_model {s : SGTree} (hInv : Inv s) (op : Op) (ks : List Int)
    (hks : ∀ j : Int, j ∈ inorder s.root ↔ j ∈ ks) (hnd : ks.Nodup) :
    Inv (s.step op).1 ∧
    (∀ j : Int, j ∈ inorder (s.step op).1.root ↔ j ∈ modelStepKeys ks op) ∧
    (s.step op).1.alphaNum = s.alphaNum ∧ (s.step op).1.alphaDen = s.alphaDen := by
  cases op with
  | ins k =>
    obtain ⟨hInv', hmem, _, hA1, hA2, _⟩ := insert_correct hInv k
    refine ⟨hInv', ?_, hA1, hA2⟩
    intro j
    rw [show (s.step (Op.ins k)).1 = (s.insert k).1 from rfl, hmem j]
    show j = k ∨ j ∈ inorder s.root ↔ j ∈ (if k ∈ ks then ks else k :: ks)
    by_cases hk : k ∈ ks
    · rw [if_pos hk]
      constructor
      · rintro (rfl | hj)
        · exact hk
        · exact (hks j).mp hj
      · intro hj
        exact Or.inr ((hks j).mpr hj)
    · rw [if_neg hk]
      rw [List.mem_cons]
      constructor
      · rintro (rfl | hj)
        · exact Or.inl rfl
        · exact Or.inr ((hks j).mp hj)
      · rintro (rfl | hj)
        · exact Or.inl rfl
        · exact Or.inr ((hks j).mpr hj)
  | del k =>
    obtain ⟨hInv', hmem, _, hA1, hA2⟩ := remove_correct hInv k
    refine ⟨hInv', ?_, hA1, hA2⟩
    intro j
    rw [show (s.step (Op.del k)).1 = (s.remove k).1 from rfl, hmem j]
    rw [show modelStepKeys ks (Op.del k) = ks.erase k from rfl, hnd.mem_erase_iff]
    rw [hks j]
  | qry k => exact ⟨hInv, fun j => hks j, rfl, rfl⟩

lemma applyOps_model {s : SGTree} (ops : List Op) (hInv : Inv s) (ks : List Int)
    (hks : ∀ j : Int, j ∈ inorder s.root ↔ j ∈ ks) (hnd : ks.Nodup) :
    Inv (applyOps s ops) ∧
    (∀ j : Int, j ∈ inorder (applyOps s ops).root ↔ j ∈ ops.foldl modelStepKeys ks) ∧
    (applyOps s ops).alphaNum = s.alphaNum ∧ (applyOps s ops).alphaDen = s.alphaDen := by
  induction ops generalizing s ks with
  | nil => exact ⟨hInv, hks, rfl, rfl⟩
  | cons op ops ih =>
    obtain ⟨hInv', hks', hA1, hA2⟩ := step_model hInv op ks hks hnd
    obtain ⟨ih1, ih2, ih3, ih4⟩ :=
      ih hInv' (modelStepKeys ks op) hks' (modelStepKeys_nodup hnd op)
    refine ⟨ih1, ih2, ?_, ?_⟩
    · rw [show applyOps s (op :: ops) = applyOps (s.step op).1 ops from rfl, ih3, hA1]
    · rw [show applyOps s (op :: ops) = applyOps (s.step op).1 ops from rfl, ih4, hA2]

lemma step_out_eq {s1 s2 : SGTree} (h1 : Inv s1) (h2 : Inv s2)
    (hsame : ∀ j : Int, j ∈ inorder s1.root ↔ j ∈ inorder s2.root) (op : Op) :
    (s1.step op).2 = (s2.step op).2 ∧ Inv (s1.step op).1 ∧ Inv (s2.step op).1 ∧
    (∀ j : Int, j ∈ inorder (s1.step op).1.root ↔ j ∈ inorder (s2.step op).1.root) := by
  have hsearch : ∀ k : Int, searchB s1.root k = searchB s2.root k := by
    intro k
    have hi : searchB s1.root k = true ↔ searchB s2.root k = true := by
      rw [searchB_eq h1.1 k, searchB_eq h2.1 k]
      exact hsame k
    rcases Bool.eq_false_or_eq_true (searchB s1.root k) with hx | hx
    · rw [hx, hi.mp hx]
    · rcases Bool.eq_false_or_eq_true (searchB s2.root k) with hy | hy
      · rw [hi.mpr hy] at hx
        exact absurd hx (by simp)
      · rw [hx, hy]
  cases op with
  | ins k =>
    obtain ⟨hI1, hm1, ho1, _, _, _⟩ := insert_correct h1 k
    obtain ⟨hI2, hm2, ho2, _, _, _⟩ := insert_correct h2 k
    refine ⟨?_, hI1, hI2, ?_⟩
    · rw [show (s1.step (Op.ins k)).2 = (s1.insert k).2 from rfl,
        show (s2.step (Op.ins k)).2 = (s2.insert k).2 from rfl, ho1, ho2, hsearch k]
    · intro j
      rw [show (s1.step (Op.ins k)).1 = (s1.insert k).1 from rfl,
        show (s2.step (Op.ins k)).1 = (s2.insert k).1 from rfl, hm1 j, hm2 j, hsame j]
  | del k =>
    obtain ⟨hI1, hm1, hq1, _, _⟩ := remove_correct h1 k
    obtain ⟨hI2, hm2, ho2, _, _⟩ := remove_correct h2 k
    refine ⟨?_, hI1, hI2, ?_⟩
    · rw [show (s1.step (Op.del k)).2 = (s1.remove k).2 from rfl,
        show (s2.step (Op.del k)).2 = (s2.remove k).2 from rfl, hq1, ho2, hsearch k]
    · intro j
      rw [show (s1.step (Op.del k)).1 = (s1.remove k).1 from rfl,
        show (s2.step (Op.del k)).1 = (s2.remove k).1 from rfl, hm1 j, hm2 j, hsame j]
  | qry k => exact ⟨hsearch k, h1, h2, hsame⟩

lemma runOutputs_eq {s1 s2 : SGTree} (ops : List Op) (h1 : Inv s1) (h2 : Inv s2)
    (hsame : ∀ j : Int, j ∈ inorder s1.root ↔ j ∈ inorder s2.root) :
    runOutputs s1 ops = runOutputs s2 ops := by
  induction ops generalizing s1 s2 with
  | nil => rfl
  | cons op ops ih =>
    obtain ⟨hout, hI1, hI2, hsame'⟩ := step_out_eq h1 h2 hsame op
    rw [runOutputs, runOutputs, hout, ih hI1 hI2 hsame']

lemma mkScapegoatTree_inv {a b : Nat} {t0 : SGTree} (h : mkScapegoatTree a b = some t0) :
    Inv t0 ∧ t0.root = Tree.nil ∧ t0.size = 0 ∧ t0.maxSize = 0 ∧
    t0.replaceWithSucc = true ∧ t0.alphaNum = a ∧ t0.alphaDen = b := by
  unfold mkScapegoatTree at h
  by_cases hc : 2 * a ≤ b ∨ b ≤ a
  · rw [if_pos hc] at h
    exact absurd h (by simp)
  · rw [if_neg hc] at h
    push_neg at hc
    injection h with h'
    subst h'
    refine ⟨⟨List.Pairwise.nil, rfl, ?_, ?_, ?_⟩, rfl, rfl, rfl, rfl, rfl, rfl⟩
    · show a * 0 ≤ 0 * b
      simp
    · show b < 2 * a
      omega
    · show a < b
      omega

/-! ### Helpers for the verifier and the two-children removal -/

lemma key_mem_inorder {t : Tree} (h : t ≠ .nil) : t.key ∈ inorder t := by
  cases t with
  | nil => exact absurd rfl h
  | node l x r => exact mem_inorder_node.mpr (Or.inr (Or.inl rfl))

lemma verifyHelper_isBST (a b : Nat) {t : Tree} (h : IsBST t) :
    (verifyHelper a b t).isBST = true := by
  induction t with
  | nil => rfl
  | node l x r ihl ihr =>
    rcases isBST_node.mp h with ⟨hl, hr, hax, hxc⟩
    show ((verifyHelper a b l).isBST && (verifyHelper a b r).isBST
      && (if l = Tree.nil then true else decide (l.key < x))
      && (if r = Tree.nil then true else decide (x < r.key))) = true
    rw [ihl hl, ihr hr]
    rw [Bool.and_eq_true, Bool.and_eq_true]
    refine ⟨⟨rfl, ?_⟩, ?_⟩
    · by_cases hln : l = Tree.nil
      · rw [if_pos hln]
      · rw [if_neg hln]
        exact decide_eq_true (hax _ (key_mem_inorder hln))
    · by_cases hrn : r = Tree.nil
      · rw [if_pos hrn]
      · rw [if_neg hrn]
        exact decide_eq_true (hxc _ (key_mem_inorder hrn))

lemma searchB_iff_findNode : ∀ (t : Tree) (k : Int),
    searchB t k = true ↔ findNode t k ≠ Tree.nil := by
  intro t
  induction t with
  | nil => intro k; simp [searchB, findNode]
  | node l x r ihl ihr =>
    intro k
    by_cases hk : k = x
    · subst hk
      simp [searchB, findNode]
    · by_cases hlt : k < x
      · rw [show searchB (.node l x r) k = searchB l k by simp [searchB, hk, hlt],
          show findNode (.node l x r) k = findNode l k by simp [findNode, hk, hlt]]
        exact ihl k
      · rw [show searchB (.node l x r) k = searchB r k by simp [searchB, hk, hlt],
          show findNode (.node l x r) k = findNode r k by simp [findNode, hk, hlt]]
        exact ihr k

lemma isBST_findNode {t : Tree} (h : IsBST t) (k : Int) : IsBST (findNode t k) := by
  induction t with
  | nil => exact h
  | node l x r ihl ihr =>
    rcases isBST_node.mp h with ⟨hl, hr, _, _⟩
    by_cases hk : k = x
    · rw [show findNode (.node l x r) k = .node l x r by simp [findNode, hk]]
      exact h
    · by_cases hlt : k < x
      · rw [show findNode (.node l x r) k = findNode l k by simp [findNode, hk, hlt]]
        exact ihl hl
      · rw [show findNode (.node l x r) k = findNode r k by simp [findNode, hk, hlt]]
        exact ihr hr

lemma removeKey_flag (repl : Bool) : ∀ (t : Tree) (k : Int),
    (removeKey repl t k).2
      = (decide ((findNode t k).left ≠ Tree.nil)
          && decide ((findNode t k).right ≠ Tree.nil)) := by
  intro t
  induction t with
  | nil => intro k; simp [removeKey, findNode, Tree.left, Tree.right]
  | node l x r ihl ihr =>
    intro k
    by_cases hk : k = x
    · subst hk
      cases l <;> cases r <;> simp [removeKey, findNode, Tree.left, Tree.right]
    · by_cases hlt : k < x
      · simp only [show removeKey repl (.node l x r) k
            = ((removeKey repl l k).1.node x r, (removeKey repl l k).2) by
            simp [removeKey, hk, hlt],
          show findNode (.node l x r) k = findNode l k by simp [findNode, hk, hlt]]
        exact ihl k
      · simp only [show removeKey repl (.node l x r) k
            = (Tree.node l x (removeKey repl r k).1, (removeKey repl r k).2) by
            simp [removeKey, hk, hlt],
          show findNode (.node l x r) k = findNode r k by simp [findNode, hk, hlt]]
        exact ihr k

lemma leftmostSubtree_left_nil : ∀ r : Tree, (leftmostSubtree r).left = Tree.nil := by
  intro r
  induction r with
  | nil => rfl
  | node l x r ihl _ =>
    cases l with
    | nil => rfl
    | node a y b => exact ihl

lemma rightmostSubtree_right_nil : ∀ l : Tree, (rightmostSubtree l).right = Tree.nil := by
  intro l
  induction l with
  | nil => rfl
  | node l x r _ ihr =>
    cases r with
    | nil => rfl
    | node a y b => exact ihr

lemma spliceMin_key_leftmost : ∀ r : Tree, r ≠ Tree.nil →
    (spliceMin r).1 = (leftmostSubtree r).key := by
  intro r
  induction r with
  | nil => intro h; exact absurd rfl h
  | node l x r ihl _ =>
    intro _
    cases l with
    | nil => rfl
    | node a y b =>
      rw [show spliceMin (.node (.node a y b) x r)
          = ((spliceMin (.node a y b)).1, .node (spliceMin (.node a y b)).2 x r) from rfl]
      rw [show leftmostSubtree (.node (.node a y b) x r)
          = leftmostSubtree (.node a y b) from rfl]
      exact ihl (by simp)

lemma spliceMax_key_rightmost : ∀ l : Tree, l ≠ Tree.nil →
    (spliceMax l).1 = (rightmostSubtree l).key := by
  intro l
  induction l with
  | nil => intro h; exact absurd rfl h
  | node l x r _ ihr =>
    intro _
    cases r with
    | nil => rfl
    | node a y b =>
      rw [show spliceMax (.node l x (.node a y b))
          = ((spliceMax (.node a y b)).1, .node l x (spliceMax (.node a y b)).2) from rfl]
      rw [show rightmostSubtree (.node l x (.node a y b))
          = rightmostSubtree (.node a y b) from rfl]
      exact ihr (by simp)

lemma inorder_eq_nil_iff {t : Tree} : inorder t = [] ↔ t = Tree.nil := by
  cases t with
  | nil => simp [inorder]
  | node l y r => simp [inorder]

lemma fsgLoop_total (a b : Nat) : ∀ (anc : List Tree) (curr : Tree) (i sz : Nat),
    (∀ u ∈ anc, u ≠ Tree.nil) →
    ∃ res : Tree × Tree × Nat,
      fsgLoop a b curr sz i (anc ++ [Tree.nil]) = some res ∧
      (res.1 = curr ∨ res.1 ∈ anc) := by
  intro anc
  induction anc with
  | nil =>
    intro curr i sz _
    exact ⟨(curr, Tree.nil, sz), rfl, Or.inl rfl⟩
  | cons p rest ih =>
    intro curr i sz hnonnil
    have hp : p ≠ Tree.nil := hnonnil p (by simp)
    cases p with
    | nil => exact absurd rfl hp
    | node pl px pr =>
      by_cases hcond : i > getAlphaDeepHeight a b sz
      · refine ⟨(curr, .node pl px pr, sz), ?_, Or.inl rfl⟩
        rw [show (Tree.node pl px pr :: rest) ++ [Tree.nil]
            = Tree.node pl px pr :: (rest ++ [Tree.nil]) from rfl, fsgLoop, if_pos hcond]
      · obtain ⟨res, hres, hmem⟩ :=
          ih (.node pl px pr) (i + 1) (sz + 1 + treeSize (if pl = curr then pr else pl))
            (fun u hu => hnonnil u (List.mem_cons_of_mem _ hu))
        refine ⟨res, ?_, ?_⟩
        · rw [show (Tree.node pl px pr :: rest) ++ [Tree.nil]
            = Tree.node pl px pr :: (rest ++ [Tree.nil]) from rfl, fsgLoop, if_neg hcond]
          exact hres
        · rcases hmem with hc | hc
          · exact Or.inr (by rw [hc]; exact List.mem_cons_self _ _)
          · exact Or.inr (List.mem_cons_of_mem _ hc)

/-! ### Exactness of the alpha-deep height

The fuel `a * n + 1` given to `aDHgo` always suffices, so
`getAlphaDeepHeight a b n` is exactly the largest `k` with `b^k ≤ n * a^k`,
i.e. `floor(log_{b/a} n)` — the quantity the C++ computes with floating-point
logarithms. -/

lemma pow_succ_bernoulli : ∀ (m x : Nat),
    x ^ (m + 1) + (m + 1) * x ^ m ≤ (x + 1) ^ (m + 1) := by
  intro m
  induction m with
  | zero =>
    intro x
    simp [pow_succ, pow_zero]
  | succ m ih =>
    intro x
    have expand : (x ^ (m + 1) + (m + 1) * x ^ m) * (x + 1)
        = x ^ (m + 2) + (m + 2) * x ^ (m + 1) + (m + 1) * x ^ m := by
      ring
    calc x ^ (m + 2) + (m + 2) * x ^ (m + 1)
        ≤ x ^ (m + 2) + (m + 2) * x ^ (m + 1) + (m + 1) * x ^ m := Nat.le_add_right _ _
      _ = (x ^ (m + 1) + (m + 1) * x ^ m) * (x + 1) := expand.symm
      _ ≤ (x + 1) ^ (m + 1) * (x + 1) := Nat.mul_le_mul_right _ (ih x)
      _ = (x + 1) ^ (m + 2) := (pow_succ _ _).symm

lemma two_mul_pow_le {a : Nat} (ha : 1 ≤ a) : 2 * a ^ a ≤ (a + 1) ^ a := by
  obtain ⟨m, rfl⟩ : ∃ m, a = m + 1 := ⟨a - 1, by omega⟩
  have h := pow_succ_bernoulli m (m + 1)
  have hrw : (m + 1) * (m + 1) ^ m = (m + 1) ^ (m + 1) := (pow_succ' _ _).symm
  rw [hrw] at h
  omega

lemma pow_lt_of_gt_mul {a b n : Nat} (ha : 1 ≤ a) (hab : a < b) (_hn : 1 ≤ n) :
    ∀ j, a * n ≤ j → n * a ^ j < b ^ j := by
  intro j hj
  induction j, hj using Nat.le_induction with
  | base =>
    have hpos : 0 < a ^ (a * n) := Nat.pos_pow_of_pos _ (by omega)
    have h1 : n * a ^ (a * n) < 2 ^ n * a ^ (a * n) :=
      (Nat.mul_lt_mul_right hpos).mpr (Nat.lt_two_pow n)
    have h2 : 2 ^ n * a ^ (a * n) = (2 * a ^ a) ^ n := by
      rw [Nat.mul_pow, Nat.pow_mul]
    have h3 : (2 * a ^ a) ^ n ≤ ((a + 1) ^ a) ^ n :=
      Nat.pow_le_pow_left (two_mul_pow_le ha) n
    have h4 : ((a + 1) ^ a) ^ n = (a + 1) ^ (a * n) := by
      rw [← Nat.pow_mul, Nat.mul_comm]
    have h5 : (a + 1) ^ (a * n) ≤ b ^ (a * n) :=
      Nat.pow_le_pow_left (by omega) _
    omega
  | succ j hj ih =>
    calc n * a ^ (j + 1) = n * a ^ j * a := by rw [pow_succ, Nat.mul_assoc]
      _ < b ^ j * a := (Nat.mul_lt_mul_right (show 0 < a by omega)).mpr ih
      _ ≤ b ^ j * b := Nat.mul_le_mul_left _ (by omega)
      _ = b ^ (j + 1) := (pow_succ _ _).symm

lemma aDHgo_spec (a b n : Nat) : ∀ (fuel k bk ak : Nat), bk = b ^ k → ak = a ^ k →
    b ^ k ≤ n * a ^ k →
    (∀ j, b ^ j ≤ n * a ^ j → j < k + fuel) →
    b ^ (aDHgo a b n fuel k bk ak) ≤ n * a ^ (aDHgo a b n fuel k bk ak) ∧
    ¬ (b ^ (aDHgo a b n fuel k bk ak + 1) ≤ n * a ^ (aDHgo a b n fuel k bk ak + 1)) := by
  intro fuel
  induction fuel with
  | zero =>
    intro k bk ak hbk hak hk hbound
    exact absurd (hbound k hk) (by omega)
  | succ fuel ih =>
    intro k bk ak hbk hak hk hbound
    subst hbk hak
    rw [aDHgo]
    by_cases hcond : b ^ k * b ≤ n * (a ^ k * a)
    · rw [if_pos hcond]
      rw [show b ^ k * b = b ^ (k + 1) from (pow_succ b k).symm,
        show a ^ k * a = a ^ (k + 1) from (pow_succ a k).symm]
      refine ih (k + 1) _ _ rfl rfl ?_ ?_
      · rw [pow_succ, pow_succ]
        exact hcond
      · intro j hj
        have := hbound j hj
        omega
    · rw [if_neg hcond]
      refine ⟨hk, ?_⟩
      rw [pow_succ, pow_succ]
      exact hcond

lemma getAlphaDeepHeight_spec {a b n : Nat} (ha : 1 ≤ a) (hab : a < b) (hn : 1 ≤ n) :
    b ^ getAlphaDeepHeight a b n ≤ n * a ^ getAlphaDeepHeight a b n ∧
    ¬ (b ^ (getAlphaDeepHeight a b n + 1) ≤ n * a ^ (getAlphaDeepHeight a b n + 1)) := by
  unfold getAlphaDeepHeight
  have hbound : ∀ j, b ^ j ≤ n * a ^ j → j < 0 + (a * n + 1) := by
    intro j hj
    by_contra hcon
    push_neg at hcon
    have := pow_lt_of_gt_mul ha hab hn j (by omega)
    omega
  exact aDHgo_spec a b n (a * n + 1) 0 1 1 (pow_zero b).symm (pow_zero a).symm
    (by simpa using hn) hbound

/-! ### Order facts about the alpha-deep height

`getAlphaDeepHeight a b n` is the largest `k` with `b^k ≤ n * a^k`; from the
exactness lemma we derive the order-theoretic facts the height analysis needs:
downward closure, monotonicity in `n`, the comparison with `log₂` (valid since
`alpha > 1/2`), and the one-step drop under the deletion-rebuild threshold. -/

lemma aDH_zero {a b : Nat} (hb : 1 ≤ b) : getAlphaDeepHeight a b 0 = 0 := by
  show aDHgo a b 0 (a * 0 + 1) 0 1 1 = 0
  rw [show a * 0 + 1 = 0 + 1 from by omega]
  rw [aDHgo]
  rw [if_neg (by omega)]

lemma pow_le_mul_pow_drop {a b n : Nat} (ha : 1 ≤ a) (hab : a ≤ b) :
    ∀ j, b ^ (j + 1) ≤ n * a ^ (j + 1) → b ^ j ≤ n * a ^ j := by
  intro j h
  rw [pow_succ, pow_succ] at h
  have h1 : b ^ j * a ≤ b ^ j * b := Nat.mul_le_mul_left _ hab
  have h3 : b ^ j * a ≤ n * a ^ j * a := by
    calc b ^ j * a ≤ n * (a ^ j * a) := le_trans h1 h
    _ = n * a ^ j * a := by ring
  exact Nat.le_of_mul_le_mul_right h3 (by omega)

lemma pow_le_mul_pow_mono {a b n : Nat} (ha : 1 ≤ a) (hab : a ≤ b) :
    ∀ (j i : Nat), i ≤ j → b ^ j ≤ n * a ^ j → b ^ i ≤ n * a ^ i := by
  intro j
  induction j with
  | zero =>
    intro i hij h
    obtain rfl : i = 0 := by omega
    exact h
  | succ j ih =>
    intro i hij h
    by_cases hi : i = j + 1
    · rw [hi]; exact h
    · exact ih i (by omega) (pow_le_mul_pow_drop ha hab j h)

lemma le_aDH_of {a b n k : Nat} (ha : 1 ≤ a) (hab : a < b) (hn : 1 ≤ n)
    (h : b ^ k ≤ n * a ^ k) : k ≤ getAlphaDeepHeight a b n := by
  by_contra hc
  push_neg at hc
  have hstep : b ^ (getAlphaDeepHeight a b n + 1)
      ≤ n * a ^ (getAlphaDeepHeight a b n + 1) :=
    pow_le_mul_pow_mono ha (by omega) k (getAlphaDeepHeight a b n + 1) (by omega) h
  exact (getAlphaDeepHeight_spec ha hab hn).2 hstep

lemma aDH_mono {a b n1 n2 : Nat} (ha : 1 ≤ a) (hab : a < b) (h : n1 ≤ n2) :
    getAlphaDeepHeight a b n1 ≤ getAlphaDeepHeight a b n2 := by
  by_cases h1 : n1 = 0
  · rw [h1, aDH_zero (by omega)]
    exact Nat.zero_le _
  · have hn1 : 1 ≤ n1 := by omega
    have hspec := (getAlphaDeepHeight_spec ha hab hn1).1
    exact le_aDH_of ha hab (by omega)
      (le_trans hspec (Nat.mul_le_mul_right _ h))

lemma log2_le_aDH {a b n : Nat} (ha : 1 ≤ a) (hab : a < b) (hba : b < 2 * a)
    (hn : 1 ≤ n) : Nat.log 2 n ≤ getAlphaDeepHeight a b n := by
  refine le_aDH_of ha hab hn ?_
  have h2 : 2 ^ Nat.log 2 n ≤ n := Nat.pow_log_le_self 2 (by omega)
  calc b ^ Nat.log 2 n ≤ (2 * a) ^ Nat.log 2 n := Nat.pow_le_pow_left (by omega) _
    _ = 2 ^ Nat.log 2 n * a ^ Nat.log 2 n := Nat.mul_pow 2 a _
    _ ≤ n * a ^ Nat.log 2 n := Nat.mul_le_mul_right _ h2

lemma aDH_maxSize_le {a b mx n : Nat} (ha : 1 ≤ a) (hab : a < b)
    (h : a * mx < n * b) :
    getAlphaDeepHeight a b mx ≤ getAlphaDeepHeight a b n + 1 := by
  have hn : 1 ≤ n := by
    rcases Nat.eq_zero_or_pos n with h0 | h0
    · subst h0
      rw [Nat.zero_mul] at h
      exact absurd h (Nat.not_lt_zero _)
    · exact h0
  by_cases hmx : mx = 0
  · rw [hmx, aDH_zero (by omega)]
    exact Nat.zero_le _
  · have hmx1 : 1 ≤ mx := by omega
    rcases Nat.eq_zero_or_pos (getAlphaDeepHeight a b mx) with hK0 | hKpos
    · rw [hK0]
      exact Nat.zero_le _
    · obtain ⟨K', hK'⟩ : ∃ K', getAlphaDeepHeight a b mx = K' + 1 :=
        ⟨getAlphaDeepHeight a b mx - 1, by omega⟩
      have hspec := (getAlphaDeepHeight_spec ha hab hmx1).1
      rw [hK'] at hspec
      have hpos : 0 < a ^ (K' + 1) := Nat.pos_pow_of_pos _ (by omega)
      have h1 : b ^ (K' + 1) * a ≤ a * mx * a ^ (K' + 1) := by
        calc b ^ (K' + 1) * a ≤ mx * a ^ (K' + 1) * a := Nat.mul_le_mul_right _ hspec
        _ = a * mx * a ^ (K' + 1) := by ring
      have h2 : a * mx * a ^ (K' + 1) < n * b * a ^ (K' + 1) :=
        (Nat.mul_lt_mul_right hpos).mpr h
      have h4 : b ^ K' * a * b < n * a ^ K' * a * b := by
        calc b ^ K' * a * b = b ^ (K' + 1) * a := by ring
        _ < n * b * a ^ (K' + 1) := lt_of_le_of_lt h1 h2
        _ = n * a ^ K' * a * b := by ring
      have h5 : b ^ K' * a < n * a ^ K' * a := lt_of_mul_lt_mul_right h4 (Nat.zero_le b)
      have h6 : b ^ K' < n * a ^ K' := lt_of_mul_lt_mul_right h5 (Nat.zero_le a)
      have hfin := le_aDH_of ha hab hn (Nat.le_of_lt h6)
      omega

/-! ### Heights: basic facts and the fields computed by `verifyHelper` -/

lemma neg_one_le_heightI : ∀ t : Tree, -1 ≤ heightI t := by
  intro t
  induction t with
  | nil => exact le_refl _
  | node l x r ihl ihr =>
    show -1 ≤ max (heightI l) (heightI r) + 1
    omega

lemma treeSize_pos {t : Tree} (h : t ≠ Tree.nil) : 1 ≤ treeSize t := by
  cases t with
  | nil => exact absurd rfl h
  | node l x r =>
    show 1 ≤ 1 + treeSize l + treeSize r
    omega

lemma verifyHelper_height (a b : Nat) : ∀ t : Tree,
    (verifyHelper a b t).height = heightI t := by
  intro t
  induction t with
  | nil => rfl
  | node l x r ihl ihr =>
    show max (verifyHelper a b l).height (verifyHelper a b r).height + 1
      = max (heightI l) (heightI r) + 1
    rw [ihl, ihr]

lemma verifyHelper_size (a b : Nat) : ∀ t : Tree,
    (verifyHelper a b t).size = treeSize t := by
  intro t
  induction t with
  | nil => rfl
  | node l x r ihl ihr =>
    show (verifyHelper a b l).size + (verifyHelper a b r).size + 1
      = 1 + treeSize l + treeSize r
    rw [ihl, ihr]
    omega

lemma verifyHelper_balanced (a b : Nat) {t : Tree}
    (h : heightI t ≤ (getAlphaDeepHeight a b (treeSize t) : Int) + 1) :
    (verifyHelper a b t).balanced = true := by
  cases t with
  | nil => rfl
  | node l x r =>
    show decide (max (verifyHelper a b l).height (verifyHelper a b r).height + 1
        ≤ (getAlphaDeepHeight a b
            ((verifyHelper a b l).size + (verifyHelper a b r).size + 1) : Int) + 1) = true
    rw [verifyHelper_height a b l, verifyHelper_height a b r,
      verifyHelper_size a b l, verifyHelper_size a b r]
    refine decide_eq_true ?_
    have e1 : treeSize (Tree.node l x r) = treeSize l + treeSize r + 1 := by
      show 1 + treeSize l + treeSize r = treeSize l + treeSize r + 1
      omega
    have e2 : heightI (Tree.node l x r) = max (heightI l) (heightI r) + 1 := rfl
    rw [e1, e2] at h
    exact h

lemma verify_true_of {s : SGTree}
    (h1 : s.alphaNum * s.maxSize ≤ s.size * s.alphaDen)
    (h2 : IsBST s.root)
    (h3 : heightI s.root
      ≤ (getAlphaDeepHeight s.alphaNum s.alphaDen (treeSize s.root) : Int) + 1) :
    s.verify = true := by
  show (decide (s.alphaNum * s.maxSize ≤ s.size * s.alphaDen)
    && (verifyHelper s.alphaNum s.alphaDen s.root).balanced
    && (verifyHelper s.alphaNum s.alphaDen s.root).isBST) = true
  rw [decide_eq_true h1, verifyHelper_balanced _ _ h3, verifyHelper_isBST _ _ h2]
  rfl

/-! ### Height of a rebuilt subtree -/

lemma balTree_height_lt : ∀ (h : Nat) (xs : List Int), xs.length < 2 ^ h →
    heightI (balTree xs) < (h : Int) := by
  intro h
  induction h with
  | zero =>
    intro xs hlen
    have h0 : (2 : Nat) ^ 0 = 1 := pow_zero 2
    have hx : xs = [] := List.length_eq_zero.mp (by omega)
    rw [hx, balTree_nil]
    show (-1 : Int) < ((0 : Nat) : Int)
    omega
  | succ h ih =>
    intro xs hlen
    cases xs with
    | nil =>
      rw [balTree_nil]
      show (-1 : Int) < ((h + 1 : Nat) : Int)
      omega
    | cons y ys =>
      have hp : (2 : Nat) ^ (h + 1) = 2 ^ h * 2 := pow_succ 2 h
      have hlc : (y :: ys).length = ys.length + 1 := List.length_cons y ys
      have htake : ((y :: ys).take ((ys.length + 1) / 2)).length < 2 ^ h := by
        rw [List.length_take]
        omega
      have hdrop : ((y :: ys).drop ((ys.length + 1) / 2 + 1)).length < 2 ^ h := by
        rw [List.length_drop]
        omega
      have ihl := ih _ htake
      have ihr := ih _ hdrop
      rw [balTree]
      simp only [heightI]
      omega

lemma rebuild_height_le (t : Tree) :
    heightI (rebuildSubtree (treeSize t) t) ≤ (Nat.log 2 (treeSize t) : Int) := by
  rw [rebuildSubtree_eq]
  have h2 := balTree_height_lt (Nat.log 2 (inorder t).length + 1) (inorder t)
    (Nat.lt_pow_succ_log_self (by omega) _)
  rw [length_inorder] at h2
  push_cast at h2
  omega

/-! ### Height bounds for insertion and grafting -/

lemma heightI_bstInsert_le : ∀ (t : Tree) (k : Int),
    heightI (bstInsert t k)
      ≤ max (heightI t) ((ancestors (bstInsert t k) k).length : Int) := by
  intro t
  induction t with
  | nil =>
    intro k
    rw [show bstInsert Tree.nil k = Tree.node Tree.nil k Tree.nil from rfl,
      show ancestors (Tree.node Tree.nil k Tree.nil) k = [] from by
        rw [ancestors]; rw [if_pos rfl]]
    simp only [heightI, List.length_nil]
    omega
  | node l x r ihl ihr =>
    intro k
    by_cases hkx : k = x
    · rw [show bstInsert (Tree.node l x r) k = Tree.node l x r from by
        rw [bstInsert]; rw [if_pos hkx]]
      exact le_max_left _ _
    · by_cases hklt : k < x
      · rw [show bstInsert (Tree.node l x r) k = Tree.node (bstInsert l k) x r from by
          rw [bstInsert]; rw [if_neg hkx, if_pos hklt],
          show ancestors (Tree.node (bstInsert l k) x r) k
              = Tree.node (bstInsert l k) x r :: ancestors (bstInsert l k) k from by
            rw [ancestors]; rw [if_neg hkx, if_pos hklt]]
        have h1 := ihl k
        simp only [heightI, List.length_cons]
        push_cast
        omega
      · rw [show bstInsert (Tree.node l x r) k = Tree.node l x (bstInsert r k) from by
          rw [bstInsert]; rw [if_neg hkx, if_neg hklt],
          show ancestors (Tree.node l x (bstInsert r k)) k
              = Tree.node l x (bstInsert r k) :: ancestors (bstInsert r k) k from by
            rw [ancestors]; rw [if_neg hkx, if_neg hklt]]
        have h1 := ihr k
        simp only [heightI, List.length_cons]
        push_cast
        omega

lemma ancestors_bstInsert_len : ∀ (t : Tree) (k : Int),
    ((ancestors (bstInsert t k) k).length : Int) ≤ heightI t + 1 := by
  intro t
  induction t with
  | nil =>
    intro k
    rw [show bstInsert Tree.nil k = Tree.node Tree.nil k Tree.nil from rfl,
      show ancestors (Tree.node Tree.nil k Tree.nil) k = [] from by
        rw [ancestors]; rw [if_pos rfl]]
    simp only [heightI, List.length_nil]
    omega
  | node l x r ihl ihr =>
    intro k
    have hnl := neg_one_le_heightI l
    have hnr := neg_one_le_heightI r
    by_cases hkx : k = x
    · rw [show bstInsert (Tree.node l x r) k = Tree.node l x r from by
        rw [bstInsert]; rw [if_pos hkx],
        show ancestors (Tree.node l x r) k = [] from by
          rw [ancestors]; rw [if_pos hkx]]
      simp only [heightI, List.length_nil]
      omega
    · by_cases hklt : k < x
      · rw [show bstInsert (Tree.node l x r) k = Tree.node (bstInsert l k) x r from by
          rw [bstInsert]; rw [if_neg hkx, if_pos hklt],
          show ancestors (Tree.node (bstInsert l k) x r) k
              = Tree.node (bstInsert l k) x r :: ancestors (bstInsert l k) k from by
            rw [ancestors]; rw [if_neg hkx, if_pos hklt]]
        have h1 := ihl k
        simp only [heightI, List.length_cons]
        push_cast
        omega
      · rw [show bstInsert (Tree.node l x r) k = Tree.node l x (bstInsert r k) from by
          rw [bstInsert]; rw [if_neg hkx, if_neg hklt],
          show ancestors (Tree.node l x (bstInsert r k)) k
              = Tree.node l x (bstInsert r k) :: ancestors (bstInsert r k) k from by
            rw [ancestors]; rw [if_neg hkx, if_neg hklt]]
        have h1 := ihr k
        simp only [heightI, List.length_cons]
        push_cast
        omega

lemma graftAlong_height_le (k : Int) (target rep : Tree) : ∀ t : Tree,
    heightI (graftAlong k target rep t)
      ≤ max (heightExcept k target t) ((graftDepth k target t : Int) + heightI rep) := by
  intro t
  induction t with
  | nil =>
    rw [graftAlong, heightExcept, graftDepth]
    by_cases hn : Tree.nil = target
    · rw [if_pos hn]
      omega
    · rw [if_neg hn]
      show (-1 : Int) ≤ max (-1) (((0 : Nat) : Int) + heightI rep)
      omega
  | node l x r ihl ihr =>
    rw [graftAlong, heightExcept, graftDepth]
    by_cases hm : Tree.node l x r = target
    · rw [if_pos hm, if_pos hm, if_pos hm]
      omega
    · rw [if_neg hm, if_neg hm, if_neg hm]
      by_cases hklt : k < x
      · rw [if_pos hklt, if_pos hklt, if_pos hklt]
        simp only [heightI]
        push_cast
        omega
      · rw [if_neg hklt, if_neg hklt, if_neg hklt]
        by_cases hxlt : x < k
        · rw [if_pos hxlt, if_pos hxlt, if_pos hxlt]
          simp only [heightI]
          push_cast
          omega
        · rw [if_neg hxlt, if_neg hxlt, if_neg hxlt]
          omega

lemma heightExcept_bstInsert_le (k : Int) : ∀ (t sg : Tree),
    sg ∈ ancestors (bstInsert t k) k →
    heightExcept k sg (bstInsert t k) ≤ heightI t := by
  intro t
  induction t with
  | nil =>
    intro sg hsg
    rw [show bstInsert Tree.nil k = Tree.node Tree.nil k Tree.nil from rfl,
      show ancestors (Tree.node Tree.nil k Tree.nil) k = [] from by
        rw [ancestors]; rw [if_pos rfl]] at hsg
    exact absurd hsg (List.not_mem_nil _)
  | node l x r ihl ihr =>
    intro sg hsg
    have hnl := neg_one_le_heightI l
    have hnr := neg_one_le_heightI r
    by_cases hkx : k = x
    · rw [show bstInsert (Tree.node l x r) k = Tree.node l x r from by
        rw [bstInsert]; rw [if_pos hkx]] at hsg
      rw [show ancestors (Tree.node l x r) k = [] from by
        rw [ancestors]; rw [if_pos hkx]] at hsg
      exact absurd hsg (List.not_mem_nil _)
    · by_cases hklt : k < x
      · rw [show bstInsert (Tree.node l x r) k = Tree.node (bstInsert l k) x r from by
          rw [bstInsert]; rw [if_neg hkx, if_pos hklt]] at hsg ⊢
        rw [show ancestors (Tree.node (bstInsert l k) x r) k
            = Tree.node (bstInsert l k) x r :: ancestors (bstInsert l k) k from by
          rw [ancestors]; rw [if_neg hkx, if_pos hklt]] at hsg
        rw [heightExcept]
        by_cases hmatch : Tree.node (bstInsert l k) x r = sg
        · rw [if_pos hmatch]
          simp only [heightI]
          omega
        · rw [if_neg hmatch, if_pos hklt]
          rcases List.mem_cons.mp hsg with hc | hc
          · exact absurd hc.symm hmatch
          · have h1 := ihl sg hc
            simp only [heightI]
            omega
      · rw [show bstInsert (Tree.node l x r) k = Tree.node l x (bstInsert r k) from by
          rw [bstInsert]; rw [if_neg hkx, if_neg hklt]] at hsg ⊢
        rw [show ancestors (Tree.node l x (bstInsert r k)) k
            = Tree.node l x (bstInsert r k) :: ancestors (bstInsert r k) k from by
          rw [ancestors]; rw [if_neg hkx, if_neg hklt]] at hsg
        have hxlt : x < k := by omega
        rw [heightExcept]
        by_cases hmatch : Tree.node l x (bstInsert r k) = sg
        · rw [if_pos hmatch]
          simp only [heightI]
          omega
        · rw [if_neg hmatch, if_neg (by omega : ¬ k < x), if_pos hxlt]
          rcases List.mem_cons.mp hsg with hc | hc
          · exact absurd hc.symm hmatch
          · have h1 := ihr sg hc
            simp only [heightI]
            omega

lemma graftDepth_le_index : ∀ (t : Tree) (k : Int) (i : Nat),
    i < (ancestors t k).length →
    graftDepth k ((ancestors t k).getD i Tree.nil) t ≤ i := by
  intro t
  induction t with
  | nil =>
    intro k i hi
    rw [show ancestors Tree.nil k = [] from rfl] at hi
    simp at hi
  | node l x r ihl ihr =>
    intro k i hi
    by_cases hkx : k = x
    · rw [show ancestors (Tree.node l x r) k = [] from by
        rw [ancestors]; rw [if_pos hkx]] at hi
      simp at hi
    · by_cases hklt : k < x
      · rw [show ancestors (Tree.node l x r) k = Tree.node l x r :: ancestors l k from by
          rw [ancestors]; rw [if_neg hkx, if_pos hklt]] at hi ⊢
        cases i with
        | zero =>
          rw [List.getD_cons_zero]
          rw [show graftDepth k (Tree.node l x r) (Tree.node l x r) = 0 from by
            rw [graftDepth]; rw [if_pos rfl]]
        | succ m =>
          rw [List.getD_cons_succ]
          by_cases hmatch : Tree.node l x r = (ancestors l k).getD m Tree.nil
          · rw [show graftDepth k ((ancestors l k).getD m Tree.nil) (Tree.node l x r)
                = 0 from by rw [graftDepth]; rw [if_pos hmatch]]
            exact Nat.zero_le _
          · rw [show graftDepth k ((ancestors l k).getD m Tree.nil) (Tree.node l x r)
                = 1 + graftDepth k ((ancestors l k).getD m Tree.nil) l from by
              rw [graftDepth]; rw [if_neg hmatch, if_pos hklt]]
            have h1 := ihl k m (by simpa using hi)
            omega
      · rw [show ancestors (Tree.node l x r) k = Tree.node l x r :: ancestors r k from by
          rw [ancestors]; rw [if_neg hkx, if_neg hklt]] at hi ⊢
        have hxlt : x < k := by omega
        cases i with
        | zero =>
          rw [List.getD_cons_zero]
          rw [show graftDepth k (Tree.node l x r) (Tree.node l x r) = 0 from by
            rw [graftDepth]; rw [if_pos rfl]]
        | succ m =>
          rw [List.getD_cons_succ]
          by_cases hmatch : Tree.node l x r = (ancestors r k).getD m Tree.nil
          · rw [show graftDepth k ((ancestors r k).getD m Tree.nil) (Tree.node l x r)
                = 0 from by rw [graftDepth]; rw [if_pos hmatch]]
            exact Nat.zero_le _
          · rw [show graftDepth k ((ancestors r k).getD m Tree.nil) (Tree.node l x r)
                = 1 + graftDepth k ((ancestors r k).getD m Tree.nil) r from by
              rw [graftDepth]; rw [if_neg hmatch, if_neg hklt, if_pos hxlt]]
            have h1 := ihr k m (by simpa using hi)
            omega

lemma getD_reverse {l : List Tree} {j : Nat} (h : j < l.length) :
    l.reverse.getD j Tree.nil = l.getD (l.length - 1 - j) Tree.nil := by
  rw [List.getD_eq_getElem _ _ (by simpa using h),
    List.getD_eq_getElem _ _ (by omega : l.length - 1 - j < l.length)]
  rw [List.getElem_reverse]

/-! ### Height bounds for removal -/

lemma spliceMin_height_le : ∀ t : Tree, t ≠ Tree.nil →
    heightI (spliceMin t).2 ≤ heightI t := by
  intro t
  induction t with
  | nil => intro h; exact absurd rfl h
  | node l x r ihl ihr =>
    intro _
    cases l with
    | nil =>
      show heightI r ≤ heightI (Tree.node Tree.nil x r)
      simp only [heightI]
      omega
    | node ll lx lr =>
      show heightI (Tree.node (spliceMin (Tree.node ll lx lr)).2 x r)
        ≤ heightI (Tree.node (Tree.node ll lx lr) x r)
      have h1 := ihl (by simp)
      simp only [heightI] at h1 ⊢
      omega

lemma spliceMax_height_le : ∀ t : Tree, t ≠ Tree.nil →
    heightI (spliceMax t).2 ≤ heightI t := by
  intro t
  induction t with
  | nil => intro h; exact absurd rfl h
  | node l x r ihl ihr =>
    intro _
    cases r with
    | nil =>
      show heightI l ≤ heightI (Tree.node l x Tree.nil)
      simp only [heightI]
      omega
    | node rl rx rr =>
      show heightI (Tree.node l x (spliceMax (Tree.node rl rx rr)).2)
        ≤ heightI (Tree.node l x (Tree.node rl rx rr))
      have h1 := ihr (by simp)
      simp only [heightI] at h1 ⊢
      omega

lemma removeKey_height_le (repl : Bool) : ∀ (t : Tree) (k : Int),
    heightI (removeKey repl t k).1 ≤ heightI t := by
  intro t
  induction t with
  | nil => intro k; exact le_refl _
  | node l x r ihl ihr =>
    intro k
    by_cases hkx : k = x
    · subst hkx
      cases l with
      | nil =>
        rw [show removeKey repl (Tree.node Tree.nil k r) k = (r, false) from by
          simp [removeKey]]
        show heightI r ≤ heightI (Tree.node Tree.nil k r)
        simp only [heightI]
        omega
      | node la ka ra =>
        cases r with
        | nil =>
          rw [show removeKey repl (Tree.node (Tree.node la ka ra) k Tree.nil) k
              = (Tree.node la ka ra, false) from by simp [removeKey]]
          show heightI (Tree.node la ka ra)
            ≤ heightI (Tree.node (Tree.node la ka ra) k Tree.nil)
          simp only [heightI]
          omega
        | node lb kb rb =>
          rw [show removeKey repl (Tree.node (Tree.node la ka ra) k (Tree.node lb kb rb)) k
              = (removeNodeWithTwoChildren repl (Tree.node la ka ra) k (Tree.node lb kb rb),
                 true) from by simp [removeKey]]
          show heightI (removeNodeWithTwoChildren repl
              (Tree.node la ka ra) k (Tree.node lb kb rb))
            ≤ heightI (Tree.node (Tree.node la ka ra) k (Tree.node lb kb rb))
          cases repl with
          | true =>
            show heightI (Tree.node (Tree.node la ka ra)
                (spliceMin (Tree.node lb kb rb)).1 (spliceMin (Tree.node lb kb rb)).2)
              ≤ heightI (Tree.node (Tree.node la ka ra) k (Tree.node lb kb rb))
            have h1 := spliceMin_height_le (Tree.node lb kb rb) (by simp)
            simp only [heightI] at h1 ⊢
            omega
          | false =>
            show heightI (Tree.node (spliceMax (Tree.node la ka ra)).2
                (spliceMax (Tree.node la ka ra)).1 (Tree.node lb kb rb))
              ≤ heightI (Tree.node (Tree.node la ka ra) k (Tree.node lb kb rb))
            have h1 := spliceMax_height_le (Tree.node la ka ra) (by simp)
            simp only [heightI] at h1 ⊢
            omega
    · by_cases hklt : k < x
      · rw [show removeKey repl (Tree.node l x r) k
            = (Tree.node (removeKey repl l k).1 x r, (removeKey repl l k).2) from by
          simp [removeKey, hkx, hklt]]
        show heightI (Tree.node (removeKey repl l k).1 x r) ≤ heightI (Tree.node l x r)
        have h1 := ihl k
        simp only [heightI]
        omega
      · rw [show removeKey repl (Tree.node l x r) k
            = (Tree.node l x (removeKey repl r k).1, (removeKey repl r k).2) from by
          simp [removeKey, hkx, hklt]]
        show heightI (Tree.node l x (removeKey repl r k).1) ≤ heightI (Tree.node l x r)
        have h1 := ihr k
        simp only [heightI]
        omega

/-! ### The height invariant is maintained by every public call

This is the Galperin–Rivest argument for this code: the tree's height never
exceeds `getAlphaDeepHeight maxSize`, and hence (because deletions keep
`size > alpha * maxSize` between full rebuilds) never exceeds
`getAlphaDeepHeight size + 1` — which is exactly the root-level `balanced`
check of `verify`. -/

lemma mkScapegoatTree_HInv {a b : Nat} {t0 : SGTree} (h : mkScapegoatTree a b = some t0) :
    HInv t0 := by
  obtain ⟨_, hroot, _, _, _, _, _⟩ := mkScapegoatTree_inv h
  constructor
  · rw [hroot]
    show (-1 : Int) ≤ _
    omega
  · rw [hroot]
    show (-1 : Int) ≤ _
    omega

lemma insert_HInv {s : SGTree} (hInv : Inv s) (hH : HInv s) (k : Int) :
    HInv (s.insert k).1 := by
  obtain ⟨hbst, hsize, hbal, ha1, ha2⟩ := hInv
  obtain ⟨hH1, hH2⟩ := hH
  have ha : 1 ≤ s.alphaNum := by omega
  by_cases hfound : searchB s.root k = true
  · rw [insert_eq_found hfound]
    exact ⟨hH1, hH2⟩
  · have hfound' : searchB s.root k = false := by
      cases hsb : searchB s.root k
      · rfl
      · exact absurd hsb hfound
    have hknotin : k ∉ inorder s.root := fun hc => hfound ((searchB_eq hbst k).mpr hc)
    have hts1 : treeSize (bstInsert s.root k) = s.size + 1 := by
      rw [treeSize_bstInsert hknotin, hsize]
    have hrevlen : (ancestors (bstInsert s.root k) k).reverse.length
        = (ancestors (bstInsert s.root k) k).length := List.length_reverse _
    have hmonoS : getAlphaDeepHeight s.alphaNum s.alphaDen s.size
        ≤ getAlphaDeepHeight s.alphaNum s.alphaDen (s.size + 1) :=
      aDH_mono ha ha2 (by omega)
    have hmonoM : getAlphaDeepHeight s.alphaNum s.alphaDen s.maxSize
        ≤ getAlphaDeepHeight s.alphaNum s.alphaDen (max s.maxSize (s.size + 1)) :=
      aDH_mono ha ha2 (le_max_left _ _)
    have hmonoM2 : getAlphaDeepHeight s.alphaNum s.alphaDen (s.size + 1)
        ≤ getAlphaDeepHeight s.alphaNum s.alphaDen (max s.maxSize (s.size + 1)) :=
      aDH_mono ha ha2 (le_max_right _ _)
    have hd_le : ((ancestors (bstInsert s.root k) k).length : Int) ≤ heightI s.root + 1 :=
      ancestors_bstInsert_len s.root k
    have hins_le : heightI (bstInsert s.root k)
        ≤ max (heightI s.root) ((ancestors (bstInsert s.root k) k).length : Int) :=
      heightI_bstInsert_le s.root k
    rw [insert_eq_not_found hfound']
    simp only []
    by_cases htrig : ((ancestors (bstInsert s.root k) k).reverse.length ≥ 1 ∧
        (ancestors (bstInsert s.root k) k).reverse.length >
          getAlphaDeepHeight s.alphaNum s.alphaDen (s.size + 1))
    · rw [if_pos htrig]
      have hne : (ancestors (bstInsert s.root k) k).reverse ≠ [] := by
        intro hc
        rw [hc] at htrig
        simp at htrig
      have hchain : List.Chain' (fun c p => p.left = c ∨ p.right = c)
          (ancestors (bstInsert s.root k) k).reverse :=
        (List.chain'_reverse).mpr ancestors_chain
      have hnonnil : ∀ u ∈ (ancestors (bstInsert s.root k) k).reverse, u ≠ Tree.nil :=
        fun u hu => ancestors_nonnil u (List.mem_reverse.mp hu)
      obtain ⟨j, hjlt, heq, hprev, hlast⟩ :=
        findScapegoat_spec s.alphaNum s.alphaDen _ hne hchain hnonnil
      rw [heq]
      simp only []
      by_cases hparnil :
          (ancestors (bstInsert s.root k) k).reverse.getD (j + 1) Tree.nil = Tree.nil
      · rw [if_pos hparnil]
        have hjlast : j = (ancestors (bstInsert s.root k) k).reverse.length - 1 := by
          by_contra hne'
          have hj1 : j + 1 < (ancestors (bstInsert s.root k) k).reverse.length := by omega
          exact hnonnil _ (getD_mem hj1) hparnil
        have hanc_ne : ancestors (bstInsert s.root k) k ≠ [] := by
          intro hc
          rw [hc] at hne
          simp at hne
        obtain ⟨rest, hrest⟩ := ancestors_head hanc_ne
        have hsg_root : (ancestors (bstInsert s.root k) k).reverse.getD j Tree.nil
            = bstInsert s.root k := by
          rw [hjlast, hrest, List.reverse_cons]
          rw [show (rest.reverse ++ [bstInsert s.root k]).length - 1 = rest.reverse.length by
            simp]
          exact getD_append_singleton _ _
        rw [hsg_root]
        have hreb := rebuild_height_le (bstInsert s.root k)
        have hlog : Nat.log 2 (treeSize (bstInsert s.root k))
            ≤ getAlphaDeepHeight s.alphaNum s.alphaDen (treeSize (bstInsert s.root k)) :=
          log2_le_aDH ha ha2 ha1 (by omega)
        rw [hts1] at hreb hlog
        refine ⟨?_, ?_⟩
        · show heightI (rebuildSubtree (treeSize (bstInsert s.root k)) (bstInsert s.root k))
            ≤ (getAlphaDeepHeight s.alphaNum s.alphaDen (s.size + 1) : Int) + 1
          rw [hts1]
          omega
        · show heightI (rebuildSubtree (treeSize (bstInsert s.root k)) (bstInsert s.root k))
            ≤ (getAlphaDeepHeight s.alphaNum s.alphaDen (s.size + 1) : Int)
          rw [hts1]
          omega
      · rw [if_neg hparnil]
        have hsg_mem_rev : (ancestors (bstInsert s.root k) k).reverse.getD j Tree.nil
            ∈ (ancestors (bstInsert s.root k) k).reverse := getD_mem hjlt
        have hsg_mem : (ancestors (bstInsert s.root k) k).reverse.getD j Tree.nil
            ∈ ancestors (bstInsert s.root k) k := List.mem_reverse.mp hsg_mem_rev
        have hsg_ne : (ancestors (bstInsert s.root k) k).reverse.getD j Tree.nil
            ≠ Tree.nil := hnonnil _ hsg_mem_rev
        have hsg_pos : 1 ≤ treeSize
            ((ancestors (bstInsert s.root k) k).reverse.getD j Tree.nil) :=
          treeSize_pos hsg_ne
        have hj_first : j + 1 > getAlphaDeepHeight s.alphaNum s.alphaDen
            (treeSize ((ancestors (bstInsert s.root k) k).reverse.getD j Tree.nil)) := by
          rcases hlast with hcase | hcase
          · exact hcase
          · exfalso
            apply hparnil
            rw [hcase, show (ancestors (bstInsert s.root k) k).reverse.length - 1 + 1
                = (ancestors (bstInsert s.root k) k).reverse.length from by omega]
            exact List.getD_eq_default _ _ (le_refl _)
        have hreb := rebuild_height_le
          ((ancestors (bstInsert s.root k) k).reverse.getD j Tree.nil)
        have hlog : Nat.log 2
            (treeSize ((ancestors (bstInsert s.root k) k).reverse.getD j Tree.nil))
            ≤ getAlphaDeepHeight s.alphaNum s.alphaDen
              (treeSize ((ancestors (bstInsert s.root k) k).reverse.getD j Tree.nil)) :=
          log2_le_aDH ha ha2 ha1 hsg_pos
        have hG := graftAlong_height_le k
          ((ancestors (bstInsert s.root k) k).reverse.getD j Tree.nil)
          (rebuildSubtree
            (treeSize ((ancestors (bstInsert s.root k) k).reverse.getD j Tree.nil))
            ((ancestors (bstInsert s.root k) k).reverse.getD j Tree.nil))
          (bstInsert s.root k)
        have hExc : heightExcept k
            ((ancestors (bstInsert s.root k) k).reverse.getD j Tree.nil)
            (bstInsert s.root k) ≤ heightI s.root :=
          heightExcept_bstInsert_le k s.root _ hsg_mem
        have hgd : graftDepth k
            ((ancestors (bstInsert s.root k) k).reverse.getD j Tree.nil)
            (bstInsert s.root k)
            ≤ (ancestors (bstInsert s.root k) k).length - 1 - j := by
          rw [getD_reverse (by omega)]
          exact graftDepth_le_index _ _ _ (by omega)
        refine ⟨?_, ?_⟩
        · show heightI (graftAlong k
              ((ancestors (bstInsert s.root k) k).reverse.getD j Tree.nil)
              (rebuildSubtree
                (treeSize ((ancestors (bstInsert s.root k) k).reverse.getD j Tree.nil))
                ((ancestors (bstInsert s.root k) k).reverse.getD j Tree.nil))
              (bstInsert s.root k))
            ≤ (getAlphaDeepHeight s.alphaNum s.alphaDen (s.size + 1) : Int) + 1
          omega
        · show heightI (graftAlong k
              ((ancestors (bstInsert s.root k) k).reverse.getD j Tree.nil)
              (rebuildSubtree
                (treeSize ((ancestors (bstInsert s.root k) k).reverse.getD j Tree.nil))
                ((ancestors (bstInsert s.root k) k).reverse.getD j Tree.nil))
              (bstInsert s.root k))
            ≤ (getAlphaDeepHeight s.alphaNum s.alphaDen (max s.maxSize (s.size + 1)) : Int)
          omega
    · rw [if_neg htrig]
      refine ⟨?_, ?_⟩
      · show heightI (bstInsert s.root k)
          ≤ (getAlphaDeepHeight s.alphaNum s.alphaDen (s.size + 1) : Int) + 1
        rw [hrevlen] at htrig
        omega
      · show heightI (bstInsert s.root k)
          ≤ (getAlphaDeepHeight s.alphaNum s.alphaDen (max s.maxSize (s.size + 1)) : Int)
        rw [hrevlen] at htrig
        omega

lemma remove_HInv {s : SGTree} (hInv : Inv s) (hH : HInv s) (k : Int) :
    HInv (s.remove k).1 := by
  obtain ⟨hbst, hsize, hbal, ha1, ha2⟩ := hInv
  obtain ⟨hH1, hH2⟩ := hH
  have ha : 1 ≤ s.alphaNum := by omega
  by_cases hfound : searchB s.root k = true
  · have hk : k ∈ inorder s.root := (searchB_eq hbst k).mp hfound
    have hts1 : treeSize (removeKey s.replaceWithSucc s.root k).1 = s.size - 1 := by
      rw [← length_inorder, length_removeKey _ hbst hk, length_inorder, hsize]
    rw [remove_eq_found hfound]
    simp only []
    by_cases hcond : (s.size - 1) * s.alphaDen ≤ s.alphaNum * s.maxSize
    · rw [if_pos hcond]
      have hreb : heightI (rebuildSubtree (s.size - 1)
          (removeKey s.replaceWithSucc s.root k).1) ≤ (Nat.log 2 (s.size - 1) : Int) := by
        have h0 := rebuild_height_le (removeKey s.replaceWithSucc s.root k).1
        rw [hts1] at h0
        exact h0
      have hlog : Nat.log 2 (s.size - 1)
          ≤ getAlphaDeepHeight s.alphaNum s.alphaDen (s.size - 1) := by
        rcases Nat.eq_zero_or_pos (s.size - 1) with h0 | h0
        · rw [h0, Nat.log_zero_right]
          exact Nat.zero_le _
        · exact log2_le_aDH ha ha2 ha1 h0
      refine ⟨?_, ?_⟩
      · show heightI (rebuildSubtree (s.size - 1) (removeKey s.replaceWithSucc s.root k).1)
          ≤ (getAlphaDeepHeight s.alphaNum s.alphaDen (s.size - 1) : Int) + 1
        omega
      · show heightI (rebuildSubtree (s.size - 1) (removeKey s.replaceWithSucc s.root k).1)
          ≤ (getAlphaDeepHeight s.alphaNum s.alphaDen (s.size - 1) : Int)
        omega
    · rw [if_neg hcond]
      have hrk : heightI (removeKey s.replaceWithSucc s.root k).1 ≤ heightI s.root :=
        removeKey_height_le _ _ _
      have hstep : getAlphaDeepHeight s.alphaNum s.alphaDen s.maxSize
          ≤ getAlphaDeepHeight s.alphaNum s.alphaDen (s.size - 1) + 1 :=
        aDH_maxSize_le ha ha2 (Nat.lt_of_not_le hcond)
      refine ⟨?_, ?_⟩
      · show heightI (removeKey s.replaceWithSucc s.root k).1
          ≤ (getAlphaDeepHeight s.alphaNum s.alphaDen (s.size - 1) : Int) + 1
        omega
      · show heightI (removeKey s.replaceWithSucc s.root k).1
          ≤ (getAlphaDeepHeight s.alphaNum s.alphaDen s.maxSize : Int)
        omega
  · have hfound' : searchB s.root k = false := by
      cases hsb : searchB s.root k
      · rfl
      · exact absurd hsb hfound
    rw [remove_eq_not_found hfound']
    exact ⟨hH1, hH2⟩

lemma step_Inv {s : SGTree} (hInv : Inv s) (op : Op) : Inv (s.step op).1 := by
  cases op with
  | ins k => exact (insert_correct hInv k).1
  | del k => exact (remove_correct hInv k).1
  | qry k => exact hInv

lemma step_HInv {s : SGTree} (hInv : Inv s) (hH : HInv s) (op : Op) :
    HInv (s.step op).1 := by
  cases op with
  | ins k => exact insert_HInv hInv hH k
  | del k => exact remove_HInv hInv hH k
  | qry k => exact hH

lemma applyOps_HInv {s : SGTree} (ops : List Op) (hInv : Inv s) (hH : HInv s) :
    HInv (applyOps s ops) := by
  induction ops generalizing s with
  | nil => exact hH
  | cons op ops ih => exact ih (step_Inv hInv op) (step_HInv hInv hH op)

/-! ### Claim theorems -/

/-- C1: for every sequence of insert/remove (and search) calls starting from a
freshly constructed tree, `search k` returns true exactly for the keys whose
most recent successful insert has not been followed by a successful remove
(the reference model `modelKeys`), and false for keys never inserted or
already removed. -/
theorem membership_correct {a b : Nat} {t0 : SGTree} (h : mkScapegoatTree a b = some t0)
    (ops : List Op) (k : Int) :
    searchB (applyOps t0 ops).root k = decide (k ∈ modelKeys ops) := by
  obtain ⟨hInv, hroot, _, _, _, _, _⟩ := mkScapegoatTree_inv h
  obtain ⟨hInvF, hmemF, _, _⟩ := applyOps_model ops hInv []
    (by rw [hroot]; intro j; simp [inorder]) List.nodup_nil
  have hiff : searchB (applyOps t0 ops).root k = true ↔ k ∈ modelKeys ops := by
    rw [searchB_eq hInvF.1 k]
    exact hmemF k
  by_cases hk : k ∈ modelKeys ops
  · rw [hiff.mpr hk, decide_eq_true hk]
  · rw [decide_eq_false hk]
    rcases Bool.eq_false_or_eq_true (searchB (applyOps t0 ops).root k) with hx | hx
    · exact absurd (hiff.mp hx) hk
    · exact hx

/-- C1 witness: a concrete run. -/
theorem membership_correct_witness :
    searchB (applyOps (freshTree 7 10) [Op.ins 1, Op.ins 2, Op.del 1]).root 1
      = decide ((1 : Int) ∈ modelKeys [Op.ins 1, Op.ins 2, Op.del 1]) :=
  @membership_correct 7 10 (freshTree 7 10) (by decide) [Op.ins 1, Op.ins 2, Op.del 1] 1

/-- C2 (counterexample): the claim asserts that after every public call every
node's subtree (not just the root) has height at most
`getAlphaDeepHeight (subtree size) + 1`.  After inserting
100, 50, 25, 75, 12, 37, 62, 87, 6, 18, 200, 210, 220, 230, 240, 250, 260, 270
into a fresh tree with alpha = 0.7, no insertion ever triggers a rebuild, and
the subtree rooted at the node holding 200 is a right chain of 8 nodes of
height 7 > getAlphaDeepHeight(8) + 1 = 6 — yet `verify()` still returns true,
because `verifyHelper` discards the children's `balanced` flags (line 331 of
the source) and so checks the height bound at the root only. -/
theorem balance_claim_counterexample :
    mkScapegoatTree 7 10 =
      some (freshTree 7 10) ∧
    SGTree.verify (applyOps (freshTree 7 10)
      ([100, 50, 25, 75, 12, 37, 62, 87, 6, 18,
        200, 210, 220, 230, 240, 250, 260, 270].map Op.ins)) = true ∧
    heightI (findNode (applyOps (freshTree 7 10)
      ([100, 50, 25, 75, 12, 37, 62, 87, 6, 18,
        200, 210, 220, 230, 240, 250, 260, 270].map Op.ins)).root 200)
      > (getAlphaDeepHeight 7 10 (treeSize (findNode (applyOps (freshTree 7 10)
        ([100, 50, 25, 75, 12, 37, 62, 87, 6, 18,
          200, 210, 220, 230, 240, 250, 260, 270].map Op.ins)).root 200)) : Int) + 1 := by
  refine ⟨by decide, by decide, by decide⟩

/-- C2 (amended): after every public insert or remove call returns, `verify()`
returns true: the size check `size ≥ alpha * maxSize` holds, the BST ordering
invariant holds, and the whole tree's (root's) height is at most
`getAlphaDeepHeight(size) + 1` — which is all the height checking `verify`
performs, because `verifyHelper` (line 331) discards the children's `balanced`
flags; the original claim's stronger per-node height bound ("every node's
subtree, not just the root") can fail (see the counterexample) even while
`verify()` returns true. -/
theorem verify_holds_after_ops {a b : Nat} {t0 : SGTree} (h : mkScapegoatTree a b = some t0)
    (ops : List Op) :
    SGTree.verify (applyOps t0 ops) = true ∧
    a * (applyOps t0 ops).maxSize ≤ (applyOps t0 ops).size * b ∧
    IsBST (applyOps t0 ops).root ∧
    heightI (applyOps t0 ops).root
      ≤ (getAlphaDeepHeight a b (applyOps t0 ops).size : Int) + 1 := by
  obtain ⟨hInv, hroot, _, _, _, hA1, hA2⟩ := mkScapegoatTree_inv h
  have hH0 := mkScapegoatTree_HInv h
  obtain ⟨hInvF, _, hFA1, hFA2⟩ := applyOps_model ops hInv []
    (by rw [hroot]; intro j; simp [inorder]) List.nodup_nil
  have hHF := applyOps_HInv ops hInv hH0
  obtain ⟨hbstF, hsizeF, hbalF, _, _⟩ := hInvF
  obtain ⟨hHF1, _⟩ := hHF
  refine ⟨?_, ?_, hbstF, ?_⟩
  · refine verify_true_of hbalF hbstF ?_
    rw [← hsizeF]
    exact hHF1
  · rw [← hA1, ← hA2, ← hFA1, ← hFA2]
    exact hbalF
  · rw [← hA1, ← hA2, ← hFA1, ← hFA2]
    exact hHF1

/-- C2 (amended) witness: a concrete run. -/
theorem verify_holds_after_ops_witness :
    SGTree.verify (applyOps (freshTree 7 10) [Op.ins 1, Op.ins 2, Op.del 1]) = true ∧
    7 * (applyOps (freshTree 7 10) [Op.ins 1, Op.ins 2, Op.del 1]).maxSize
      ≤ (applyOps (freshTree 7 10) [Op.ins 1, Op.ins 2, Op.del 1]).size * 10 ∧
    IsBST (applyOps (freshTree 7 10) [Op.ins 1, Op.ins 2, Op.del 1]).root ∧
    heightI (applyOps (freshTree 7 10) [Op.ins 1, Op.ins 2, Op.del 1]).root
      ≤ (getAlphaDeepHeight 7 10
          (applyOps (freshTree 7 10) [Op.ins 1, Op.ins 2, Op.del 1]).size : Int) + 1 :=
  @verify_holds_after_ops 7 10 (freshTree 7 10) (by decide) [Op.ins 1, Op.ins 2, Op.del 1]

/-- C4: flattening a subtree of size n into a right-linked chain and rebuilding
with `buildTree n` (the composition `rebuildSubtree`) yields a tree with an
in-order traversal identical to the original (hence exactly the same n keys,
and a BST again whenever the original was); at every node of the result the
left subtree holds `ceil((n-1)/2)` and the right subtree `floor((n-1)/2)` of
its `n-1` descendants, so sibling subtree sizes differ by at most 1. -/
theorem rebuild_correctness (t : Tree) (n : Nat) (h : n = treeSize t) :
    inorder (rebuildSubtree n t) = inorder t ∧
    (IsBST t → IsBST (rebuildSubtree n t)) ∧
    splitBalancedB (rebuildSubtree n t) = true ∧
    siblingBalancedB (rebuildSubtree n t) = true := by
  subst h
  rw [rebuildSubtree_eq]
  exact ⟨inorder_balTree _, fun hb => isBST_balTree hb, splitBalancedB_balTree _,
    siblingBalancedB_of_splitBalancedB _ (splitBalancedB_balTree _)⟩

/-- C4 witness: a concrete subtree. -/
theorem rebuild_correctness_witness :
    inorder (rebuildSubtree 3 (.node (.node .nil 1 .nil) 2 (.node .nil 3 .nil)))
      = inorder (.node (.node .nil 1 .nil) 2 (.node .nil 3 .nil)) ∧
    (IsBST (.node (.node .nil 1 .nil) 2 (.node .nil 3 .nil)) →
      IsBST (rebuildSubtree 3 (.node (.node .nil 1 .nil) 2 (.node .nil 3 .nil)))) ∧
    splitBalancedB (rebuildSubtree 3 (.node (.node .nil 1 .nil) 2 (.node .nil 3 .nil)))
      = true ∧
    siblingBalancedB (rebuildSubtree 3 (.node (.node .nil 1 .nil) 2 (.node .nil 3 .nil)))
      = true :=
  rebuild_correctness (.node (.node .nil 1 .nil) 2 (.node .nil 3 .nil)) 3 (by decide)

/-- C5: after a successful remove, if the decremented size satisfies
`size ≤ alpha * maxSize` (exactly `size * alphaDen ≤ alphaNum * maxSize`) the
entire tree is rebuilt with the root as scapegoat and `maxSize` is reset to
`size`; otherwise no rebuild happens on the remove path and `maxSize` is
unchanged. -/
theorem remove_rebuild_protocol {s : SGTree} {k : Int} (h : searchB s.root k = true) :
    ((s.size - 1) * s.alphaDen ≤ s.alphaNum * s.maxSize →
      s.remove k = ({ s with
          root := rebuildSubtree (s.size - 1) (removeKey s.replaceWithSucc s.root k).1,
          size := s.size - 1,
          maxSize := s.size - 1,
          replaceWithSucc := if (removeKey s.replaceWithSucc s.root k).2 then
            ! s.replaceWithSucc else s.replaceWithSucc }, true)) ∧
    (¬ ((s.size - 1) * s.alphaDen ≤ s.alphaNum * s.maxSize) →
      s.remove k = ({ s with
          root := (removeKey s.replaceWithSucc s.root k).1,
          size := s.size - 1,
          replaceWithSucc := if (removeKey s.replaceWithSucc s.root k).2 then
            ! s.replaceWithSucc else s.replaceWithSucc }, true) ∧
      (s.remove k).1.maxSize = s.maxSize) := by
  constructor
  · intro hc
    rw [remove_eq_found h]
    simp only []
    rw [if_pos hc]
  · intro hc
    constructor
    · rw [remove_eq_found h]
      simp only []
      rw [if_neg hc]
    · rw [remove_eq_found h]
      simp only []
      rw [if_neg hc]

/-- C5 witness: a concrete removal. -/
theorem remove_rebuild_protocol_witness :
    (((applyOps (freshTree 7 10) [Op.ins 5, Op.ins 3]).size - 1) *
        (applyOps (freshTree 7 10) [Op.ins 5, Op.ins 3]).alphaDen ≤
        (applyOps (freshTree 7 10) [Op.ins 5, Op.ins 3]).alphaNum *
        (applyOps (freshTree 7 10) [Op.ins 5, Op.ins 3]).maxSize) ∧
    (applyOps (freshTree 7 10) [Op.ins 5, Op.ins 3]).remove 3 =
      ({ (applyOps (freshTree 7 10) [Op.ins 5, Op.ins 3]) with
          root := rebuildSubtree
            ((applyOps (freshTree 7 10) [Op.ins 5, Op.ins 3]).size - 1)
            (removeKey (applyOps (freshTree 7 10)
              [Op.ins 5, Op.ins 3]).replaceWithSucc
              (applyOps (freshTree 7 10) [Op.ins 5, Op.ins 3]).root 3).1,
          size := (applyOps (freshTree 7 10) [Op.ins 5, Op.ins 3]).size - 1,
          maxSize := (applyOps (freshTree 7 10)
            [Op.ins 5, Op.ins 3]).size - 1,
          replaceWithSucc := if (removeKey (applyOps (freshTree 7 10)
              [Op.ins 5, Op.ins 3]).replaceWithSucc
              (applyOps (freshTree 7 10) [Op.ins 5, Op.ins 3]).root 3).2 then
            ! (applyOps (freshTree 7 10) [Op.ins 5, Op.ins 3]).replaceWithSucc
          else (applyOps (freshTree 7 10) [Op.ins 5, Op.ins 3]).replaceWithSucc }, true) :=
  ⟨by decide,
    (remove_rebuild_protocol (by decide)).1 (by decide)⟩

/-- C7: inserting an already-present key returns false and leaves the state
completely unchanged; removing an absent key returns false and leaves the
state completely unchanged; consequently a second remove of the same key
returns false. -/
theorem insert_remove_return_contract (s : SGTree) (k : Int) :
    (searchB s.root k = true → s.insert k = (s, false)) ∧
    (searchB s.root k = false → s.remove k = (s, false)) ∧
    (Inv s → ∀ s' : SGTree, s.remove k = (s', true) → s'.remove k = (s', false)) := by
  refine ⟨insert_eq_found, remove_eq_not_found, ?_⟩
  intro hInv s' hrem
  obtain ⟨hInv', hmem, _, _, _⟩ := remove_correct hInv k
  rw [hrem] at hInv' hmem
  apply remove_eq_not_found
  have hnot : k ∉ inorder s'.root := fun hc => ((hmem k).mp hc).1 rfl
  rcases Bool.eq_false_or_eq_true (searchB s'.root k) with hx | hx
  · exact absurd ((searchB_eq hInv'.1 k).mp hx) hnot
  · exact hx

/-- C7 witness: a concrete state. -/
theorem insert_remove_return_contract_witness :
    ((applyOps (freshTree 7 10) [Op.ins 5]).insert 5 =
      (applyOps (freshTree 7 10) [Op.ins 5], false)) ∧
    ((applyOps (freshTree 7 10) [Op.ins 5]).remove 9 =
      (applyOps (freshTree 7 10) [Op.ins 5], false)) ∧
    (((applyOps (freshTree 7 10) [Op.ins 5]).remove 5).1.remove 5 =
      (((applyOps (freshTree 7 10) [Op.ins 5]).remove 5).1, false)) :=
  ⟨(insert_remove_return_contract _ 5).1 (by decide),
   (insert_remove_return_contract _ 9).2.1 (by decide),
   (insert_remove_return_contract (applyOps (freshTree 7 10) [Op.ins 5]) 5).2.2 (by decide)
     ((applyOps (freshTree 7 10) [Op.ins 5]).remove 5).1 (Prod.ext rfl (by decide))⟩

/-- C8: constructing with a balance factor alpha = a/b outside the open
interval (0.5, 1) — including exactly 0.5 (2a = b) and exactly 1 (a = b) —
fails with the invalid-argument condition (`none`, no clamping, no tree);
any alpha strictly inside succeeds and the resulting tree stores that alpha. -/
theorem constructor_alpha_validation (a b : Nat) :
    ((2 * a ≤ b ∨ b ≤ a) → mkScapegoatTree a b = none) ∧
    (b < 2 * a → a < b →
      mkScapegoatTree a b = some (freshTree a b)) := by
  constructor
  · intro hc
    unfold mkScapegoatTree
    rw [if_pos hc]
  · intro h1 h2
    unfold mkScapegoatTree
    rw [if_neg (by omega)]
    rfl

/-- C8 witness: alpha = 0.5 exactly, alpha = 1 exactly, and alpha = 0.7. -/
theorem constructor_alpha_validation_witness :
    mkScapegoatTree 1 2 = none ∧ mkScapegoatTree 1 1 = none ∧
    mkScapegoatTree 7 10 = some (freshTree 7 10) :=
  ⟨(constructor_alpha_validation 1 2).1 (by omega),
   (constructor_alpha_validation 1 1).1 (by omega),
   (constructor_alpha_validation 7 10).2 (by omega) (by omega)⟩

/-- C9: whenever insert calls `findScapegoat` — the ancestor stack holds the
null sentinel at the bottom plus at least one real ancestor of the fresh
leaf — the search never pops or reads an empty stack (modelled by the `none`
result, which never occurs: the sentinel is popped as a parent at most once
and ends the loop) and the returned scapegoat node is non-null. -/
theorem findScapegoat_safe {s : SGTree} {k : Int}
    (hne : (ancestors (bstInsert s.root k) k).reverse ≠ []) :
    ∃ sg par sz,
      findScapegoat s.alphaNum s.alphaDen
        ((ancestors (bstInsert s.root k) k).reverse ++ [Tree.nil]) = some (sg, par, sz) ∧
      sg ≠ Tree.nil := by
  obtain ⟨c, anc, hcons⟩ := List.exists_cons_of_ne_nil hne
  have hnonnil : ∀ u ∈ (ancestors (bstInsert s.root k) k).reverse, u ≠ Tree.nil :=
    fun u hu => ancestors_nonnil u (List.mem_reverse.mp hu)
  obtain ⟨res, hres, hmem⟩ := fsgLoop_total s.alphaNum s.alphaDen anc c 1 (treeSize c)
    (fun u hu => hnonnil u (by rw [hcons]; exact List.mem_cons_of_mem _ hu))
  refine ⟨res.1, res.2.1, res.2.2, ?_, ?_⟩
  · rw [hcons, show (c :: anc) ++ [Tree.nil] = c :: (anc ++ [Tree.nil]) from rfl,
      findScapegoat, hres]
  · rcases hmem with hc | hc
    · rw [hc]
      exact hnonnil c (by rw [hcons]; exact List.mem_cons_self c anc)
    · exact hnonnil res.1 (by rw [hcons]; exact List.mem_cons_of_mem _ hc)

/-- C9 witness: a concrete insert with one real ancestor. -/
theorem findScapegoat_safe_witness :
    ∃ sg par sz,
      findScapegoat (applyOps (freshTree 7 10) [Op.ins 5]).alphaNum
        (applyOps (freshTree 7 10) [Op.ins 5]).alphaDen
        ((ancestors (bstInsert (applyOps (freshTree 7 10)
          [Op.ins 5]).root 7) 7).reverse ++ [Tree.nil]) = some (sg, par, sz) ∧
      sg ≠ Tree.nil :=
  findScapegoat_safe (by decide)

/-- C3: a successful insert triggers the scapegoat search and rebuild iff the
number of real ancestors of the new leaf (`insertionHeight` = the length of
the reversed ancestor path) is at least 1 and strictly exceeds the alpha-deep
height of the whole tree's size after the insertion (`s.size + 1`); in that
case the scapegoat returned by `findScapegoat` is the deepest ancestor —
walking from the new leaf's parent at index 1 (`getD 0` of the deepest-first
path, C++ index `j + 1`) toward the root — whose index strictly exceeds the
alpha-deep height of its own exact subtree size (every deeper ancestor failing
that test), or the root if the ancestor path is exhausted; `findScapegoat`
also returns that ancestor's parent (`Tree.nil`, i.e. null, exactly in the
root case) and its exact subtree size, and insert rebuilds that subtree in
place (grafted at the scapegoat's slot, or replacing the root). -/
theorem insert_scapegoat_characterization {s : SGTree} {k : Int}
    (habs : searchB s.root k = false) :
    (¬ ((ancestors (bstInsert s.root k) k).reverse.length ≥ 1 ∧
        (ancestors (bstInsert s.root k) k).reverse.length >
          getAlphaDeepHeight s.alphaNum s.alphaDen (s.size + 1)) →
      (s.insert k).1.root = bstInsert s.root k) ∧
    (((ancestors (bstInsert s.root k) k).reverse.length ≥ 1 ∧
        (ancestors (bstInsert s.root k) k).reverse.length >
          getAlphaDeepHeight s.alphaNum s.alphaDen (s.size + 1)) →
      ∃ j : Nat, j < (ancestors (bstInsert s.root k) k).reverse.length ∧
        findScapegoat s.alphaNum s.alphaDen
            ((ancestors (bstInsert s.root k) k).reverse ++ [Tree.nil]) =
          some ((ancestors (bstInsert s.root k) k).reverse.getD j Tree.nil,
            (ancestors (bstInsert s.root k) k).reverse.getD (j + 1) Tree.nil,
            treeSize ((ancestors (bstInsert s.root k) k).reverse.getD j Tree.nil)) ∧
        (∀ m : Nat, m < j → ¬ (m + 1 > getAlphaDeepHeight s.alphaNum s.alphaDen
            (treeSize ((ancestors (bstInsert s.root k) k).reverse.getD m Tree.nil)))) ∧
        (j + 1 > getAlphaDeepHeight s.alphaNum s.alphaDen
            (treeSize ((ancestors (bstInsert s.root k) k).reverse.getD j Tree.nil))
          ∨ j = (ancestors (bstInsert s.root k) k).reverse.length - 1) ∧
        ((ancestors (bstInsert s.root k) k).reverse.getD (j + 1) Tree.nil = Tree.nil →
          (ancestors (bstInsert s.root k) k).reverse.getD j Tree.nil
            = bstInsert s.root k) ∧
        (s.insert k).1.root =
          (if (ancestors (bstInsert s.root k) k).reverse.getD (j + 1) Tree.nil
              = Tree.nil then
            rebuildSubtree
              (treeSize ((ancestors (bstInsert s.root k) k).reverse.getD j Tree.nil))
              ((ancestors (bstInsert s.root k) k).reverse.getD j Tree.nil)
          else
            graftAlong k ((ancestors (bstInsert s.root k) k).reverse.getD j Tree.nil)
              (rebuildSubtree
                (treeSize ((ancestors (bstInsert s.root k) k).reverse.getD j Tree.nil))
                ((ancestors (bstInsert s.root k) k).reverse.getD j Tree.nil))
              (bstInsert s.root k))) := by
  constructor
  · intro hcond
    rw [insert_eq_not_found habs]
    simp only []
    rw [if_neg hcond]
  · intro hcond
    have hne : (ancestors (bstInsert s.root k) k).reverse ≠ [] := by
      intro hc
      rw [hc] at hcond
      simp at hcond
    have hchain := (List.chain'_reverse).mpr
      (@ancestors_chain (bstInsert s.root k) k)
    have hnonnil : ∀ u ∈ (ancestors (bstInsert s.root k) k).reverse, u ≠ Tree.nil :=
      fun u hu => ancestors_nonnil u (List.mem_reverse.mp hu)
    obtain ⟨j, hjlt, heq, hprev, hlast⟩ :=
      findScapegoat_spec s.alphaNum s.alphaDen _ hne hchain hnonnil
    refine ⟨j, hjlt, heq, hprev, hlast, ?_, ?_⟩
    · intro hparnil
      have hjlast : j = (ancestors (bstInsert s.root k) k).reverse.length - 1 := by
        by_contra hne'
        exact hnonnil _ (getD_mem (by omega)) hparnil
      have hanc_ne : ancestors (bstInsert s.root k) k ≠ [] := by
        intro hc
        rw [hc] at hne
        simp at hne
      obtain ⟨rest, hrest⟩ := ancestors_head hanc_ne
      rw [hjlast, hrest, List.reverse_cons]
      rw [show (rest.reverse ++ [bstInsert s.root k]).length - 1
          = rest.reverse.length by simp]
      exact getD_append_singleton _ _
    · rw [insert_eq_not_found habs]
      simp only []
      rw [if_pos hcond, heq]
      simp only []
      by_cases hparnil : (ancestors (bstInsert s.root k) k).reverse.getD (j + 1) Tree.nil
          = Tree.nil
      · rw [if_pos hparnil, if_pos hparnil]
      · rw [if_neg hparnil, if_neg hparnil]

/-- C3 witness: with alpha = 0.7, inserting 1..6 builds a chain without any
rebuild, and the subsequent insert of 7 satisfies the trigger condition. -/
theorem insert_scapegoat_characterization_witness :
    (let s := applyOps (freshTree 7 10)
      [Op.ins 1, Op.ins 2, Op.ins 3, Op.ins 4, Op.ins 5, Op.ins 6]
     let k : Int := 7
     (¬ ((ancestors (bstInsert s.root k) k).reverse.length ≥ 1 ∧
        (ancestors (bstInsert s.root k) k).reverse.length >
          getAlphaDeepHeight s.alphaNum s.alphaDen (s.size + 1)) →
      (s.insert k).1.root = bstInsert s.root k) ∧
    (((ancestors (bstInsert s.root k) k).reverse.length ≥ 1 ∧
        (ancestors (bstInsert s.root k) k).reverse.length >
          getAlphaDeepHeight s.alphaNum s.alphaDen (s.size + 1)) →
      ∃ j : Nat, j < (ancestors (bstInsert s.root k) k).reverse.length ∧
        findScapegoat s.alphaNum s.alphaDen
            ((ancestors (bstInsert s.root k) k).reverse ++ [Tree.nil]) =
          some ((ancestors (bstInsert s.root k) k).reverse.getD j Tree.nil,
            (ancestors (bstInsert s.root k) k).reverse.getD (j + 1) Tree.nil,
            treeSize ((ancestors (bstInsert s.root k) k).reverse.getD j Tree.nil)) ∧
        (∀ m : Nat, m < j → ¬ (m + 1 > getAlphaDeepHeight s.alphaNum s.alphaDen
            (treeSize ((ancestors (bstInsert s.root k) k).reverse.getD m Tree.nil)))) ∧
        (j + 1 > getAlphaDeepHeight s.alphaNum s.alphaDen
            (treeSize ((ancestors (bstInsert s.root k) k).reverse.getD j Tree.nil))
          ∨ j = (ancestors (bstInsert s.root k) k).reverse.length - 1) ∧
        ((ancestors (bstInsert s.root k) k).reverse.getD (j + 1) Tree.nil = Tree.nil →
          (ancestors (bstInsert s.root k) k).reverse.getD j Tree.nil
            = bstInsert s.root k) ∧
        (s.insert k).1.root =
          (if (ancestors (bstInsert s.root k) k).reverse.getD (j + 1) Tree.nil
              = Tree.nil then
            rebuildSubtree
              (treeSize ((ancestors (bstInsert s.root k) k).reverse.getD j Tree.nil))
              ((ancestors (bstInsert s.root k) k).reverse.getD j Tree.nil)
          else
            graftAlong k ((ancestors (bstInsert s.root k) k).reverse.getD j Tree.nil)
              (rebuildSubtree
                (treeSize ((ancestors (bstInsert s.root k) k).reverse.getD j Tree.nil))
                ((ancestors (bstInsert s.root k) k).reverse.getD j Tree.nil))
              (bstInsert s.root k)))) :=
  insert_scapegoat_characterization (by decide)

/-- C6: when remove targets a node with two children, the node's key is
overwritten with its in-order successor's key (the minimum of the right
subtree) when `replaceWithSucc` is true, with its in-order predecessor's key
(the maximum of the left subtree) when false; the successor/predecessor is
spliced out of the subtree (it is the leftmost/rightmost node there and so
has at most one child), and the toggle is negated — the returned state's
`replaceWithSucc`, which the next remove call reads, is the negation of the
current one, so successive two-child deletions alternate. -/
theorem two_child_removal_spec {s : SGTree} {k : Int} {l : Tree} {x : Int} {r : Tree}
    (hbst : IsBST s.root) (hfind : findNode s.root k = .node l x r)
    (hl : l ≠ Tree.nil) (hr : r ≠ Tree.nil) :
    (s.remove k).1.replaceWithSucc = ! s.replaceWithSucc ∧
    removeNodeWithTwoChildren true l x r = .node l (spliceMin r).1 (spliceMin r).2 ∧
    inorder r = (spliceMin r).1 :: inorder (spliceMin r).2 ∧
    x < (spliceMin r).1 ∧
    (∀ z ∈ inorder r, (spliceMin r).1 ≤ z) ∧
    (spliceMin r).1 = (leftmostSubtree r).key ∧
    (leftmostSubtree r).left = Tree.nil ∧
    removeNodeWithTwoChildren false l x r = .node (spliceMax l).2 (spliceMax l).1 r ∧
    inorder l = inorder (spliceMax l).2 ++ [(spliceMax l).1] ∧
    (spliceMax l).1 < x ∧
    (∀ z ∈ inorder l, z ≤ (spliceMax l).1) ∧
    (spliceMax l).1 = (rightmostSubtree l).key ∧
    (rightmostSubtree l).right = Tree.nil := by
  have hfound : searchB s.root k = true := by
    rw [searchB_iff_findNode, hfind]
    simp
  have hflag : (removeKey s.replaceWithSucc s.root k).2 = true := by
    rw [removeKey_flag, hfind]
    simp [Tree.left, Tree.right, hl, hr]
  have hbstn : IsBST (.node l x r) := by
    rw [← hfind]
    exact isBST_findNode hbst k
  rcases isBST_node.mp hbstn with ⟨hbl, hbr, hax, hxc⟩
  have hminr := spliceMin_inorder hr
  have hmaxl := spliceMax_inorder hl
  have hminmem : (spliceMin r).1 ∈ inorder r := by
    rw [hminr]
    exact List.mem_cons_self _ _
  have hmaxmem : (spliceMax l).1 ∈ inorder l := by
    rw [hmaxl]
    exact List.mem_append_right _ (List.mem_singleton_self _)
  refine ⟨?_, rfl, hminr, hxc _ hminmem, ?_, spliceMin_key_leftmost r hr,
    leftmostSubtree_left_nil r, rfl, hmaxl, hax _ hmaxmem, ?_,
    spliceMax_key_rightmost l hl, rightmostSubtree_right_nil l⟩
  · rw [remove_eq_found hfound]
    simp only []
    by_cases hc : (s.size - 1) * s.alphaDen ≤ s.alphaNum * s.maxSize
    · rw [if_pos hc]
      show (if (removeKey s.replaceWithSucc s.root k).2 then ! s.replaceWithSucc
        else s.replaceWithSucc) = ! s.replaceWithSucc
      rw [hflag]
      rfl
    · rw [if_neg hc]
      show (if (removeKey s.replaceWithSucc s.root k).2 then ! s.replaceWithSucc
        else s.replaceWithSucc) = ! s.replaceWithSucc
      rw [hflag]
      rfl
  · intro z hz
    have hp : ((spliceMin r).1 :: inorder (spliceMin r).2).Pairwise
        (fun a c => a < c) := by
      rw [← hminr]
      exact hbr
    rw [hminr] at hz
    rcases List.mem_cons.mp hz with rfl | hz
    · exact le_refl _
    · exact le_of_lt ((List.pairwise_cons.mp hp).1 z hz)
  · intro z hz
    have hp : (inorder (spliceMax l).2 ++ [(spliceMax l).1]).Pairwise
        (fun a c => a < c) := by
      rw [← hmaxl]
      exact hbl
    rw [hmaxl] at hz
    rcases List.mem_append.mp hz with hz | hz
    · exact le_of_lt ((List.pairwise_append.mp hp).2.2 z hz _ (List.mem_singleton_self _))
    · rw [List.mem_singleton.mp hz]

/-- C6 witness: removing 3 from the tree built by inserting 5, 3, 8, 1, 4
(alpha = 0.7), where the node holding 3 has two children. -/
theorem two_child_removal_spec_witness :
    (let s := applyOps (freshTree 7 10) [Op.ins 5, Op.ins 3, Op.ins 8, Op.ins 1, Op.ins 4]
     let l : Tree := .node .nil 1 .nil
     let x : Int := 3
     let r : Tree := .node .nil 4 .nil
     (s.remove 3).1.replaceWithSucc = ! s.replaceWithSucc ∧
     removeNodeWithTwoChildren true l x r = .node l (spliceMin r).1 (spliceMin r).2 ∧
     inorder r = (spliceMin r).1 :: inorder (spliceMin r).2 ∧
     x < (spliceMin r).1 ∧
     (∀ z ∈ inorder r, (spliceMin r).1 ≤ z) ∧
     (spliceMin r).1 = (leftmostSubtree r).key ∧
     (leftmostSubtree r).left = Tree.nil ∧
     removeNodeWithTwoChildren false l x r = .node (spliceMax l).2 (spliceMax l).1 r ∧
     inorder l = inorder (spliceMax l).2 ++ [(spliceMax l).1] ∧
     (spliceMax l).1 < x ∧
     (∀ z ∈ inorder l, z ≤ (spliceMax l).1) ∧
     (spliceMax l).1 = (rightmostSubtree l).key ∧
     (rightmostSubtree l).right = Tree.nil) :=
  @two_child_removal_spec
    (applyOps (freshTree 7 10) [Op.ins 5, Op.ins 3, Op.ins 8, Op.ins 1, Op.ins 4])
    3 (.node .nil 1 .nil) 3 (.node .nil 4 .nil)
    (by decide) (by decide) (by decide) (by decide)

/-- C10: removing the only remaining key always takes the full-rebuild branch
(the new size 0 satisfies `size ≤ alpha * maxSize`), the rebuild machinery is
well-defined on the empty tree (`flatten` of an empty subtree returns the list
head unchanged; `buildTree 0` only clears the head's left child), the result
has null root with `maxSize` reset to 0, and the state is indistinguishable
from a freshly constructed tree for every subsequent sequence of
search/insert/remove calls (identical returned booleans). -/
theorem remove_last_key_resets {s : SGTree} {x : Int} (hInv : Inv s)
    (hone : inorder s.root = [x]) :
    s.remove x = ({ s with root := Tree.nil, size := 0, maxSize := 0 }, true) ∧
    (∀ h : Tree, flatten Tree.nil h = h) ∧
    (∀ (l : Tree) (y : Int) (r : Tree), buildTree 0 (.node l y r) = .node .nil y r) ∧
    (∀ ops : List Op,
      runOutputs { s with root := Tree.nil, size := 0, maxSize := 0 } ops =
        runOutputs (freshTree s.alphaNum s.alphaDen) ops) := by
  obtain ⟨hbst, hsize, hbal, ha1, ha2⟩ := hInv
  have hroot : s.root = Tree.node Tree.nil x Tree.nil := by
    cases hroot : s.root with
    | nil =>
      rw [hroot] at hone
      exact absurd hone (by simp [inorder])
    | node l y r =>
      rw [hroot] at hone
      rw [show inorder (Tree.node l y r) = inorder l ++ y :: inorder r from rfl] at hone
      have hlen : (inorder l).length + ((inorder r).length + 1) = 1 := by
        have hh := congrArg List.length hone
        rw [List.length_append, List.length_cons] at hh
        simpa using hh
      have hlnil : l = Tree.nil := inorder_eq_nil_iff.mp
        (List.eq_nil_of_length_eq_zero (by omega))
      have hrnil : r = Tree.nil := inorder_eq_nil_iff.mp
        (List.eq_nil_of_length_eq_zero (by omega))
      rw [hlnil, hrnil] at hone
      simp [inorder] at hone
      rw [hlnil, hrnil, hone]
  have hsz1 : s.size = 1 := by
    rw [hsize, hroot]
    rfl
  have hfound : searchB s.root x = true := by
    rw [hroot]
    simp [searchB]
  have hrk : removeKey s.replaceWithSucc s.root x = (Tree.nil, false) := by
    rw [hroot]
    simp [removeKey]
  have hreb0 : rebuildSubtree 0 Tree.nil = Tree.nil := by
    unfold rebuildSubtree
    rw [show flatten Tree.nil dummyNode = dummyNode from rfl,
      show dummyNode = Tree.node Tree.nil (-1) Tree.nil from rfl, buildTree]
    rfl
  refine ⟨?_, fun h => rfl, fun l y r => by rw [buildTree], ?_⟩
  · rw [remove_eq_found hfound]
    simp only []
    rw [hrk, hsz1]
    rw [if_pos (by simp)]
    simp [hreb0]
  · intro ops
    apply runOutputs_eq
    · exact ⟨List.Pairwise.nil, rfl, by simp, ha1, ha2⟩
    · exact ⟨List.Pairwise.nil, rfl, by show s.alphaNum * 0 ≤ 0 * s.alphaDen; simp,
        ha1, ha2⟩
    · intro j
      exact Iff.rfl

/-- C10 witness: a tree holding only the key 5. -/
theorem remove_last_key_resets_witness :
    (let s := applyOps (freshTree 7 10) [Op.ins 5]
     s.remove 5 = ({ s with root := Tree.nil, size := 0, maxSize := 0 }, true) ∧
     (∀ h : Tree, flatten Tree.nil h = h) ∧
     (∀ (l : Tree) (y : Int) (r : Tree), buildTree 0 (.node l y r) = .node .nil y r) ∧
     (∀ ops : List Op,
       runOutputs { s with root := Tree.nil, size := 0, maxSize := 0 } ops =
         runOutputs (freshTree s.alphaNum s.alphaDen) ops)) :=
  @remove_last_key_resets (applyOps (freshTree 7 10) [Op.ins 5]) 5 (by decide) (by decide)

end Scapegoat
